import Mathlib

/-!
Verification of the llm-secret-interceptor proxy core.

Texts and message bodies are modelled as `List Char` (the Go code works on
`string`/`[]byte`; all inputs relevant to the claims are ASCII, so one list
element corresponds to one byte).  Each definition below is a shallow
embedding of a function of the Go source; its doc comment names the source
location it was translated from.
-/

/-- `[a-f0-9]` — the character class of the placeholder hash part, from the
pattern built in `pkg/placeholder/placeholder.go` (`NewGenerator`). -/
def isHexDigit (c : Char) : Bool :=
  (('0' ≤ c) && (c ≤ '9')) || (('a' ≤ c) && (c ≤ 'f'))

/-- Strip a literal character sequence from the front of a list (the literal
prefix/suffix parts of the placeholder regex, which are `QuoteMeta`-escaped in
`NewGenerator` and hence match themselves). -/
def stripLit : List Char → List Char → Option (List Char)
  | [], cs => some cs
  | _ :: _, [] => none
  | p :: ps, c :: cs => if c = p then stripLit ps cs else none

/-- Take exactly `n` hex digits from the front of a list. -/
def takeHex : Nat → List Char → Option (List Char × List Char)
  | 0, cs => some ([], cs)
  | _ + 1, [] => none
  | n + 1, c :: cs =>
    if isHexDigit c then
      match takeHex n cs with
      | some (h, rest) => some (c :: h, rest)
      | none => none
    else none

/-- Match the placeholder pattern `prefix [a-f0-9]{8} suffix` (built in
`NewGenerator`, `pkg/placeholder/placeholder.go`) at the head of `cs`.
On success returns the matched placeholder and the remainder of the text.
The pattern has fixed length `pre.length + 8 + suf.length`. -/
def matchPH (pre suf : List Char) (cs : List Char) : Option (List Char × List Char) :=
  match stripLit pre cs with
  | none => none
  | some r1 =>
    match takeHex 8 r1 with
    | none => none
    | some (h, r2) =>
      match stripLit suf r2 with
      | none => none
      | some r3 => some (pre ++ h ++ suf, r3)

/-- The default placeholder prefix `__SECRET_` (`config.DefaultConfig`). -/
def defPre : List Char := "__SECRET_".toList

/-- The default placeholder suffix `__` (`config.DefaultConfig`). -/
def defSuf : List Char := "__".toList

/-- Total length of a placeholder: `|prefix| + hashLen + |suffix|` with
`hashLen = 8`, as computed in `NewGenerator` (`maxLength`). -/
def phLen (pre suf : List Char) : Nat := pre.length + 8 + suf.length

/-- Fuel-indexed worker for placeholder restoration.  The fuel only bounds the
recursion (one unit per scan position, mirroring the index loop of the Go
regexp engine); `restore` below supplies `t.length` which is always enough. -/
def restoreF (pre suf : List Char) (lookup : List Char → Option (List Char)) :
    Nat → List Char → List Char
  | _, [] => []
  | 0, t => t
  | n + 1, c :: cs =>
    match matchPH pre suf (c :: cs) with
    | some (ph, rest) =>
      (match lookup ph with
       | some s => s
       | none => ph) ++ restoreF pre suf lookup n rest
    | none => c :: restoreF pre suf lookup n cs

/-- Embedding of placeholder restoration: replace every leftmost
non-overlapping occurrence of the placeholder pattern by `lookup ph` when the
lookup hits, keep the placeholder on a miss.  This is the semantics of both
`Generator.RestorePlaceholders` (`pattern.ReplaceAllStringFunc`, which
rewrites the leftmost non-overlapping matches) and `Replacer.Restore`
(src/unnamed/part_010), which collects the same matches via
`FindAllStringIndex` and splices them from the highest offset to the lowest —
for disjoint ranges that equals in-order replacement. -/
def restore (pre suf : List Char) (lookup : List Char → Option (List Char))
    (t : List Char) : List Char :=
  restoreF pre suf lookup t.length t

/-! ## Streaming restorer (`internal/protocol/streaming.go`, `internal/proxy/stream.go`) -/

/-- `StreamBuffer` (`internal/protocol/streaming.go`): a byte buffer with the
bounded look-behind size `maxLength`. -/
structure StreamBuffer where
  buffer : List Char
  maxLength : Nat

/-- `StreamBuffer.Write`: append data to the buffer. -/
def sbWrite (b : StreamBuffer) (data : List Char) : StreamBuffer :=
  { b with buffer := b.buffer ++ data }

/-- `StreamBuffer.Flush`: if the buffer holds more than `maxLength` bytes,
return everything except the last `maxLength` bytes and retain those; else
return `none` (Go returns `nil`). -/
def sbFlush (b : StreamBuffer) : Option (List Char) × StreamBuffer :=
  if b.buffer.length ≤ b.maxLength then (none, b)
  else
    let safeLen := b.buffer.length - b.maxLength
    (some (b.buffer.take safeLen), { b with buffer := b.buffer.drop safeLen })

/-- `StreamBuffer.FlushAll`: return the whole buffer and clear it. -/
def sbFlushAll (b : StreamBuffer) : List Char × StreamBuffer :=
  (b.buffer, { b with buffer := [] })

/-- One step of `StreamProcessor.ProcessChunk` (`internal/proxy/stream.go`)
for a content chunk with delta `delta`: write the delta into the buffer,
flush the safe prefix and emit it after placeholder restoration
(`processContent` calls `replacer.Restore` with `store.Lookup`).
Returns the new buffer state and the emitted delta (empty when `Flush`
returned `nil` and no SSE event is written). -/
def processChunk (lookup : List Char → Option (List Char)) (b : StreamBuffer)
    (delta : List Char) : StreamBuffer × List Char :=
  let b := sbWrite b delta
  match sbFlush b with
  | (none, b) => (b, [])
  | (some safe, b) => (b, restore defPre defSuf lookup safe)

/-- `StreamProcessor.flushAll`: restore and emit the remaining buffer (run on
the `[DONE]` marker in `ProcessChunk`). -/
def processDone (lookup : List Char → Option (List Char)) (b : StreamBuffer) :
    List Char :=
  restore defPre defSuf lookup (sbFlushAll b).1

/-- Feed a list of chunk deltas through the stream processor starting from
buffer state `b`, concatenating the emitted deltas. -/
def streamFeed (lookup : List Char → Option (List Char)) (b : StreamBuffer) :
    List (List Char) → StreamBuffer × List Char
  | [] => (b, [])
  | d :: ds =>
    let (b', out) := processChunk lookup b d
    let (b'', rest) := streamFeed lookup b' ds
    (b'', out ++ rest)

/-- The client-visible concatenation of emitted deltas for a whole stream:
feed every chunk through `ProcessChunk`, then handle the done marker
(`flushAll`).  The buffer starts empty with capacity `maxLen`
(`NewStreamProcessor` passes `maxPlaceholderLen = Generator.MaxLength()`). -/
def streamRun (lookup : List Char → Option (List Char)) (maxLen : Nat)
    (chunks : List (List Char)) : List Char :=
  let (b, out) := streamFeed lookup ⟨[], maxLen⟩ chunks
  out ++ processDone lookup b

/-- The lookup table of the single mapping
`__SECRET_abc12345__ ↦ sek` used by the spec's streaming scenario. -/
def lookupScn4 : List Char → Option (List Char) :=
  fun ph => if ph = "__SECRET_abc12345__".toList then some "sek".toList else none

/-- C1: Streaming restoration is NOT equivalent to whole-text restoration.
On the spec's own scenario (§8, scenario 4) — mapping
`__SECRET_abc12345__ ↦ sek`, deltas `"Key: __SEC"`, `"RET_abc12"`,
`"345__ done"`, buffer capacity `max_length = 19` — the emitted concatenation
is the unrestored `"Key: __SECRET_abc12345__ done"`, while whole-text
restoration yields `"Key: sek done"`: `StreamBuffer.Flush` cuts the buffer at
`len - maxLength` BEFORE restoration runs, so a complete placeholder that
straddles the cut is split and never restored, and its bytes reach the
client. -/
theorem streaming_equivalence_fails_scenario4 :
    streamRun lookupScn4 19
        ["Key: __SEC".toList, "RET_abc12".toList, "345__ done".toList]
      = "Key: __SECRET_abc12345__ done".toList
    ∧ restore defPre defSuf lookupScn4 "Key: __SECRET_abc12345__ done".toList
      = "Key: sek done".toList
    ∧ streamRun lookupScn4 19
        ["Key: __SEC".toList, "RET_abc12".toList, "345__ done".toList]
      ≠ restore defPre defSuf lookupScn4 "Key: __SECRET_abc12345__ done".toList := by
  refine ⟨by decide, by decide, by decide⟩

/-! ## Placeholder recognizer (`pkg/placeholder/placeholder.go`) -/

theorem stripLit_sound {p cs r : List Char} (h : stripLit p cs = some r) :
    cs = p ++ r := by
  induction p generalizing cs with
  | nil => simpa [stripLit] using h
  | cons x xs ih =>
    cases cs with
    | nil => simp [stripLit] at h
    | cons c cs =>
      by_cases hc : c = x
      · simp only [stripLit, if_pos hc] at h
        simp [hc, ih h]
      · simp [stripLit, hc] at h

theorem stripLit_self (p x : List Char) : stripLit p (p ++ x) = some x := by
  induction p with
  | nil => simp [stripLit]
  | cons c cs ih => simp [stripLit, ih]

theorem takeHex_sound {n : Nat} {cs h r : List Char} (hm : takeHex n cs = some (h, r)) :
    cs = h ++ r ∧ h.length = n ∧ ∀ c ∈ h, isHexDigit c := by
  induction n generalizing cs h r with
  | zero =>
    simp only [takeHex, Option.some.injEq, Prod.mk.injEq] at hm
    obtain ⟨hm1, hm2⟩ := hm
    simp [← hm1, ← hm2]
  | succ n ih =>
    cases cs with
    | nil => simp [takeHex] at hm
    | cons c cs =>
      by_cases hc : isHexDigit c
      · simp only [takeHex, if_pos hc] at hm
        cases hr : takeHex n cs with
        | none => rw [hr] at hm; simp at hm
        | some pr =>
          obtain ⟨h', r'⟩ := pr
          rw [hr] at hm
          simp only [Option.some.injEq, Prod.mk.injEq] at hm
          obtain ⟨hm1, hm2⟩ := hm
          obtain ⟨e1, e2, e3⟩ := ih hr
          subst hm2
          refine ⟨by simp [← hm1, e1], by simp [← hm1, e2], ?_⟩
          intro d hd
          rw [← hm1] at hd
          rcases List.mem_cons.mp hd with hd | hd
          · exact hd ▸ hc
          · exact e3 d hd
      · simp [takeHex, hc] at hm

theorem takeHex_self {h : List Char} {n : Nat} (hl : h.length = n)
    (hx : ∀ c ∈ h, isHexDigit c) (x : List Char) :
    takeHex n (h ++ x) = some (h, x) := by
  induction h generalizing n with
  | nil => simp [← hl, takeHex]
  | cons c cs ih =>
    subst hl
    have hc : isHexDigit c := hx c (by simp)
    have ihr := ih rfl (fun d hd => hx d (List.mem_cons_of_mem _ hd))
    simp [takeHex, hc, ihr]

theorem matchPH_sound {pre suf cs m r : List Char}
    (hm : matchPH pre suf cs = some (m, r)) :
    ∃ h, m = pre ++ h ++ suf ∧ h.length = 8 ∧ (∀ c ∈ h, isHexDigit c) ∧
      cs = m ++ r ∧ m.length = phLen pre suf := by
  unfold matchPH at hm
  cases h1 : stripLit pre cs with
  | none => rw [h1] at hm; simp at hm
  | some r1 =>
    rw [h1] at hm
    dsimp only at hm
    cases h2 : takeHex 8 r1 with
    | none => rw [h2] at hm; simp at hm
    | some pr =>
      obtain ⟨hh, r2⟩ := pr
      rw [h2] at hm
      dsimp only at hm
      cases h3 : stripLit suf r2 with
      | none => rw [h3] at hm; simp at hm
      | some r3 =>
        rw [h3] at hm
        simp only [Option.some.injEq, Prod.mk.injEq] at hm
        obtain ⟨hm1, hm2⟩ := hm
        obtain ⟨e1, e2, e3⟩ := takeHex_sound h2
        refine ⟨hh, hm1.symm, e2, e3, ?_, ?_⟩
        · rw [stripLit_sound h1, e1, stripLit_sound h3, ← hm1, ← hm2]
          simp
        · simp [← hm1, phLen, e2]
          omega

theorem matchPH_complete {h : List Char} (pre suf : List Char)
    (hl : h.length = 8) (hx : ∀ c ∈ h, isHexDigit c) (v : List Char) :
    matchPH pre suf (pre ++ h ++ suf ++ v) = some (pre ++ h ++ suf, v) := by
  unfold matchPH
  rw [show pre ++ h ++ suf ++ v = pre ++ (h ++ (suf ++ v)) by simp, stripLit_self]
  dsimp only
  rw [takeHex_self hl hx]
  dsimp only
  rw [stripLit_self]

/-- `Generator.IsPlaceholder` (`pkg/placeholder/placeholder.go`):
`pattern.MatchString(s)` — true iff the placeholder pattern matches at SOME
position of `s` (Go regexps are unanchored). -/
def isPlaceholder (pre suf : List Char) (s : List Char) : Bool :=
  (List.range (s.length + 1)).any (fun i => (matchPH pre suf (s.drop i)).isSome)

/-- The spec-side notion of "contains a placeholder substring": some split of
`s` exhibits `prefix ++ 8 lowercase-hex chars ++ suffix` in the middle. -/
def ContainsPH (pre suf : List Char) (s : List Char) : Prop :=
  ∃ u h v, s = u ++ pre ++ h ++ suf ++ v ∧ h.length = 8 ∧ ∀ c ∈ h, isHexDigit c

/-- C10: the placeholder recognizer is unanchored — for every prefix/suffix
configuration, `IsPlaceholder(s)` is true iff `s` CONTAINS a substring of the
form `prefix + 8 lowercase-hex chars + suffix`; in particular the string
`"x__SECRET_0123abcd__y"`, which is not itself a placeholder but contains
one, is accepted under the default configuration. -/
theorem isPlaceholder_unanchored :
    (∀ pre suf s, isPlaceholder pre suf s = true ↔ ContainsPH pre suf s)
    ∧ isPlaceholder defPre defSuf "x__SECRET_0123abcd__y".toList = true := by
  constructor
  · intro pre suf s
    constructor
    · intro hb
      obtain ⟨i, _, hi⟩ := List.any_eq_true.mp hb
      obtain ⟨⟨m, r⟩, hmr⟩ := Option.isSome_iff_exists.mp hi
      obtain ⟨h, hm, hl, hx, hdrop, _⟩ := matchPH_sound hmr
      refine ⟨s.take i, h, r, ?_, hl, hx⟩
      conv_lhs => rw [← List.take_append_drop i s]
      rw [hdrop, hm]
      simp
    · rintro ⟨u, h, v, hs, hl, hx⟩
      apply List.any_eq_true.mpr
      refine ⟨u.length, List.mem_range.mpr ?_, ?_⟩
      · have : s.length = u.length + (pre.length + (h.length + (suf.length + v.length))) := by
          simp [hs]
        omega
      · have hdrop : s.drop u.length = pre ++ h ++ suf ++ v := by
          rw [hs, show u ++ pre ++ h ++ suf ++ v = u ++ (pre ++ h ++ suf ++ v) by simp,
            List.drop_left]
        rw [hdrop, matchPH_complete pre suf hl hx v]
        rfl
  · decide

/-! ## Parse-failure passthrough on the request leg
(`internal/proxy/proxy.go`, `Server.processRequest`) -/

/-- A syntax for the `io.Reader` values `processRequest` builds.  `nilR` is
the untyped `nil` reader literal. -/
inductive GoReader where
  | nilR : GoReader
  | bytesR : List Char → GoReader
  | limitReader : GoReader → Nat → GoReader
  | multiReader : List GoReader → GoReader
  | nopCloser : GoReader → GoReader

mutual

/-- Reading a `GoReader` to EOF (`io.ReadAll`).  `none` models a runtime
panic (nil-pointer dereference when a `nil` reader is actually read).
`io.LimitReader(r, n)` reports EOF after `n` bytes WITHOUT touching `r` once
the budget is 0, so `limitReader nilR 0` reads as empty rather than
panicking; `io.MultiReader` concatenates; `io.NopCloser` forwards reads. -/
def readAll : GoReader → Option (List Char)
  | .nilR => none
  | .bytesR data => some data
  | .limitReader r n =>
    if n = 0 then some [] else (readAll r).map (fun d => d.take n)
  | .multiReader rs => readAllList rs
  | .nopCloser r => readAll r

def readAllList : List GoReader → Option (List Char)
  | [] => some []
  | r :: rs =>
    match readAll r, readAllList rs with
    | some d, some ds => some (d ++ ds)
    | _, _ => none

end

/-- The reader installed as `req.Body` by `Server.processRequest` when
`handler.ParseRequest(body)` fails (proxy.go, the "Restore body and
passthrough" branch):
`io.NopCloser(io.NopCloser(io.LimitReader(io.MultiReader(io.NopCloser(io.LimitReader(nil, 0))), 0)))`.
Note that the original `body` bytes appear nowhere in this expression. -/
def parseFailureBody : GoReader :=
  .nopCloser (.nopCloser (.limitReader
    (.multiReader [.nopCloser (.limitReader .nilR 0)]) 0))

/-- C4: parse-failure passthrough does NOT forward the body unchanged.  For
the failing request body `"{invalid"` (rejected by the OpenAI handler's JSON
parser), the body the proxy forwards upstream reads as the empty byte string,
not as the bytes the client sent: the branch builds its replacement
`req.Body` out of zero-length `LimitReader`s and never references `body`. -/
theorem parse_failure_passthrough_drops_body :
    readAll parseFailureBody = some []
    ∧ readAll parseFailureBody ≠ some "\x7binvalid".toList := by
  exact ⟨by decide, by decide⟩

/-! ## In-memory mapping store (`internal/storage/memory.go`)

Go `map`s are modelled as association lists with pairwise-distinct keys
(maintained by construction); entry order never influences results, matching
map semantics.  `time.Now()` is modelled by passing an explicit `now : Nat`
to each operation; `now.Sub(lastUsed) > ttl` becomes truncated `Nat`
subtraction, which agrees with Go for the monotone clocks of a real run. -/

/-- Lookup in a Go map modelled as an association list. -/
def mlookup {α : Type} : List (String × α) → String → Option α
  | [], _ => none
  | e :: rest, k => if e.1 = k then some e.2 else mlookup rest k

/-- Assignment `m[k] = v` on a Go map.  The entry is re-inserted at the
front; order is irrelevant to map semantics and keys stay pairwise
distinct. -/
def mupsert {α : Type} (l : List (String × α)) (k : String) (v : α) :
    List (String × α) :=
  (k, v) :: l.filter (fun e => e.1 ≠ k)

theorem mlookup_cons {α : Type} (e : String × α) (rest : List (String × α))
    (k : String) :
    mlookup (e :: rest) k = if e.1 = k then some e.2 else mlookup rest k := rfl

theorem filter_cons_bool {α : Type} (P : String × α → Bool) (e : String × α)
    (rest : List (String × α)) :
    (e :: rest).filter P
      = if P e then e :: rest.filter P else rest.filter P := by
  by_cases h : P e <;> simp [List.filter_cons, h]

theorem mlookup_filter_ne {α : Type} (l : List (String × α)) {k k' : String}
    (h : k ≠ k') :
    mlookup (l.filter (fun e => e.1 ≠ k)) k' = mlookup l k' := by
  induction l with
  | nil => rfl
  | cons e rest ih =>
    rw [filter_cons_bool, mlookup_cons]
    by_cases he : e.1 = k
    · rw [if_neg (by simp [he]), if_neg (fun hk => h (he.symm.trans hk)), ih]
    · rw [if_pos (by simp [he]), mlookup_cons]
      by_cases he' : e.1 = k'
      · rw [if_pos he', if_pos he']
      · rw [if_neg he', if_neg he', ih]

theorem mlookup_mupsert {α : Type} (l : List (String × α)) (k : String) (v : α)
    (k' : String) :
    mlookup (mupsert l k v) k' = if k = k' then some v else mlookup l k' := by
  by_cases hk : k = k'
  · rw [mupsert, mlookup_cons, if_pos hk, if_pos hk]
  · rw [mupsert, mlookup_cons, if_neg hk, if_neg hk, mlookup_filter_ne l hk]

theorem mlookup_filter_key {α : Type} (P : String → Bool) (l : List (String × α))
    (k : String) :
    mlookup (l.filter (fun e => P e.1)) k = if P k then mlookup l k else none := by
  induction l with
  | nil => by_cases hp : P k <;> simp [mlookup, hp]
  | cons e rest ih =>
    rw [filter_cons_bool]
    by_cases he : e.1 = k
    · by_cases hp : P k
      · rw [if_pos (he ▸ hp), mlookup_cons, if_pos he, if_pos hp, mlookup_cons,
          if_pos he]
      · rw [if_neg (by rw [he]; exact hp), ih, if_neg hp, if_neg hp]
    · by_cases hp : P e.1
      · rw [if_pos hp, mlookup_cons, if_neg he, ih, mlookup_cons, if_neg he]
      · rw [if_neg (by simp [hp]), ih, mlookup_cons, if_neg he]

/-- Keys of an association list are pairwise distinct. -/
def NodupKeys {α : Type} (l : List (String × α)) : Prop :=
  (l.map Prod.fst).Nodup

theorem nodupKeys_nil {α : Type} : NodupKeys ([] : List (String × α)) := by
  simp [NodupKeys]

theorem nodupKeys_filter {α : Type} (P : String × α → Bool)
    {l : List (String × α)} (h : NodupKeys l) : NodupKeys (l.filter P) :=
  List.Nodup.sublist (List.Sublist.map Prod.fst (List.filter_sublist l)) h

theorem nodupKeys_mupsert {α : Type} {l : List (String × α)} (h : NodupKeys l)
    (k : String) (v : α) : NodupKeys (mupsert l k v) := by
  unfold NodupKeys mupsert
  simp only [List.map_cons, List.nodup_cons]
  refine ⟨?_, nodupKeys_filter _ h⟩
  intro hk
  obtain ⟨e, he, hek⟩ := List.mem_map.mp hk
  have := List.of_mem_filter he
  simp [hek] at this

theorem nodupKeys_cons_iff {α : Type} {e : String × α} {rest : List (String × α)} :
    NodupKeys (e :: rest) ↔ (∀ v, (e.1, v) ∉ rest) ∧ NodupKeys rest := by
  unfold NodupKeys
  simp only [List.map_cons, List.nodup_cons]
  constructor
  · rintro ⟨h1, h2⟩
    exact ⟨fun v hv => h1 (List.mem_map.mpr ⟨(e.1, v), hv, rfl⟩), h2⟩
  · rintro ⟨h1, h2⟩
    refine ⟨fun hm => ?_, h2⟩
    obtain ⟨x, hx, hxe⟩ := List.mem_map.mp hm
    obtain ⟨x1, x2⟩ := x
    simp only at hxe
    subst hxe
    exact h1 x2 hx

theorem mlookup_mem {α : Type} {l : List (String × α)} {k : String} {v : α}
    (h : mlookup l k = some v) : (k, v) ∈ l := by
  induction l with
  | nil => simp [mlookup] at h
  | cons e rest ih =>
    rw [mlookup_cons] at h
    by_cases he : e.1 = k
    · rw [if_pos he] at h
      obtain ⟨e1, e2⟩ := e
      simp only at he
      apply List.mem_cons.mpr
      exact Or.inl (by rw [← he, ← Option.some.inj h])
    · rw [if_neg he] at h
      exact List.mem_cons_of_mem _ (ih h)

theorem mem_mlookup {α : Type} {l : List (String × α)} (hnd : NodupKeys l)
    {k : String} {v : α} (h : (k, v) ∈ l) : mlookup l k = some v := by
  induction l with
  | nil => simp at h
  | cons e rest ih =>
    obtain ⟨h1, h2⟩ := nodupKeys_cons_iff.mp hnd
    rcases List.mem_cons.mp h with h | h
    · rw [← h, mlookup_cons, if_pos rfl]
    · have hk : e.1 ≠ k := fun he => h1 v (he ▸ h)
      rw [mlookup_cons, if_neg hk, ih h2 h]

theorem mlookup_filter_val {α : Type} (P : String × α → Bool)
    {l : List (String × α)} (hnd : NodupKeys l) (k : String) :
    mlookup (l.filter P) k
      = (mlookup l k).bind (fun v => if P (k, v) then some v else none) := by
  induction l with
  | nil => simp [mlookup]
  | cons e rest ih =>
    obtain ⟨h1, h2⟩ := nodupKeys_cons_iff.mp hnd
    rw [filter_cons_bool]
    by_cases he : e.1 = k
    · have hre : mlookup rest k = none := by
        cases hr : mlookup rest k with
        | none => rfl
        | some v => exact absurd (mlookup_mem hr) (he ▸ h1 v)
      obtain ⟨ek, ev⟩ := e
      simp only at he
      subst he
      by_cases hp : P (ek, ev)
      · rw [if_pos hp, mlookup_cons, mlookup_cons, if_pos rfl, if_pos rfl]
        simp [hp]
      · rw [if_neg hp, ih h2, mlookup_cons, if_pos rfl, hre]
        simp [hp]
    · by_cases hp : P e
      · rw [if_pos hp, mlookup_cons, if_neg he, ih h2, mlookup_cons, if_neg he]
      · rw [if_neg hp, ih h2, mlookup_cons, if_neg he]

/-- `storage.Mapping` (src/unnamed/part_008): a secret↔placeholder record
with metadata timestamps. -/
structure GoMapping where
  secret : String
  placeholder : String
  lastUsed : Nat
  createdAt : Nat
deriving DecidableEq, Repr

/-- `storage.MemoryStore` (`internal/storage/memory.go`): forward map keyed
by placeholder, reverse index keyed by secret, TTL, and the state of the
`stopCleanup` channel (`closed = true` once `close(m.stopCleanup)` ran). -/
structure GoMemoryStore where
  mappings : List (String × GoMapping)
  secretIndex : List (String × String)
  ttl : Nat
  closed : Bool
deriving DecidableEq, Repr

/-- `NewMemoryStore`: empty maps, open cleanup channel. -/
def newMemoryStore (ttl : Nat) : GoMemoryStore :=
  { mappings := [], secretIndex := [], ttl := ttl, closed := false }

/-- `MemoryStore.Store`: unconditionally overwrite the forward entry and the
reverse entry; both timestamps are set to `now`.  (Note: a previous secret of
the same placeholder keeps its stale reverse entry.) -/
def memStore (σ : GoMemoryStore) (p s : String) (now : Nat) : GoMemoryStore :=
  { σ with
    mappings := mupsert σ.mappings p ⟨s, p, now, now⟩,
    secretIndex := mupsert σ.secretIndex s p }

/-- `MemoryStore.Lookup`: on hit, update `LastUsed` (the Go code mutates the
`*Mapping` in place) and return the secret with `true`. -/
def memLookup (σ : GoMemoryStore) (p : String) (now : Nat) :
    (String × Bool) × GoMemoryStore :=
  match mlookup σ.mappings p with
  | none => (("", false), σ)
  | some m =>
    ((m.secret, true),
     { σ with mappings := mupsert σ.mappings p { m with lastUsed := now } })

/-- `MemoryStore.Touch`: refresh `LastUsed` when the placeholder exists. -/
def memTouch (σ : GoMemoryStore) (p : String) (now : Nat) : GoMemoryStore :=
  match mlookup σ.mappings p with
  | none => σ
  | some m =>
    { σ with mappings := mupsert σ.mappings p { m with lastUsed := now } }

/-- `MemoryStore.LookupBySecret`: read the reverse index; on hit `Touch` the
placeholder (which may be absent from the forward map — the result is still
`(p, true)`). -/
def memLookupBySecret (σ : GoMemoryStore) (s : String) (now : Nat) :
    (String × Bool) × GoMemoryStore :=
  match mlookup σ.secretIndex s with
  | none => (("", false), σ)
  | some p => ((p, true), memTouch σ p now)

/-- The eviction test of `MemoryStore.Cleanup`: `now.Sub(m.LastUsed) > ttl`. -/
def expiredM (ttl now : Nat) (m : GoMapping) : Bool := ttl < now - m.lastUsed

/-- `MemoryStore.Cleanup`: delete every expired forward entry and, for each,
delete the reverse entry keyed by that mapping's secret.  The Go loop
iterates the map while deleting; since the per-entry deletions commute this
equals the two filters below. -/
def memCleanup (σ : GoMemoryStore) (now : Nat) : GoMemoryStore :=
  let expired := σ.mappings.filter (fun e => expiredM σ.ttl now e.2)
  let expiredSecrets := expired.map (fun e => e.2.secret)
  { σ with
    mappings := σ.mappings.filter (fun e => ! expiredM σ.ttl now e.2),
    secretIndex := σ.secretIndex.filter (fun e => ! expiredSecrets.contains e.1) }

/-- `MemoryStore.Size`: `len(m.mappings)`. -/
def memSize (σ : GoMemoryStore) : Nat := σ.mappings.length

/-- `MemoryStore.Close` runs `close(m.stopCleanup)` unconditionally.  Closing
an already-closed Go channel panics, which `none` models; a successful close
marks the channel closed and returns `nil`. -/
def memClose (σ : GoMemoryStore) : Option GoMemoryStore :=
  if σ.closed then none else some { σ with closed := true }

/-- C7: Close is NOT safe to call more than once.  After a first successful
`Close()` of a fresh in-memory store, a second `Close()` executes
`close(m.stopCleanup)` on an already-closed channel, which is a Go runtime
panic (modelled by `none`) — it neither returns an error nor is a no-op, and
it crashes the process. -/
theorem close_twice_panics :
    (memClose (newMemoryStore 3600)).isSome = true
    ∧ (memClose (newMemoryStore 3600)).bind memClose = none := by
  exact ⟨by decide, by decide⟩

/-! ## Operation sequences over the store (claims C3 and C9) -/

/-- The operations of the `MappingStore` contract exercised by the claims. -/
inductive SOp where
  | store (p s : String)
  | lookup (p : String)
  | lookupBySecret (s : String)
  | touch (p : String)
  | cleanup
deriving DecidableEq, Repr

/-- Apply one timestamped operation to the store state. -/
def applyOp (σ : GoMemoryStore) : Nat × SOp → GoMemoryStore
  | (t, .store p s) => memStore σ p s t
  | (t, .lookup p) => (memLookup σ p t).2
  | (t, .lookupBySecret s) => (memLookupBySecret σ s t).2
  | (t, .touch p) => memTouch σ p t
  | (t, .cleanup) => memCleanup σ t

/-- Run a sequence of timestamped operations. -/
def runOps (σ : GoMemoryStore) (ops : List (Nat × SOp)) : GoMemoryStore :=
  ops.foldl applyOp σ

/-- A `Store(p, s)` is non-rebinding in state `σ`: it neither overwrites an
existing placeholder with a different secret nor repoints a secret already
bound to a different placeholder.  (The pipeline guarantees this when
`Generate` is collision-free, because `LookupBySecret` precedes `Store`.) -/
def storeSafe (σ : GoMemoryStore) (p s : String) : Bool :=
  (match mlookup σ.mappings p with
   | none => true
   | some m => m.secret == s)
  && (match mlookup σ.secretIndex s with
      | none => true
      | some q => q == p)

/-- Every `store` operation of the sequence is non-rebinding in the state it
executes in. -/
def safeRun (σ : GoMemoryStore) : List (Nat × SOp) → Bool
  | [] => true
  | (t, op) :: rest =>
    (match op with
     | .store p s => storeSafe σ p s
     | _ => true)
    && safeRun (applyOp σ (t, op)) rest

/-- Forward/reverse index consistency (spec §3):
`reverse(secret) = placeholder ⇔ forward(placeholder).secret = secret`. -/
def ConsistentFR (σ : GoMemoryStore) : Prop :=
  ∀ s p, mlookup σ.secretIndex s = some p
    ↔ ∃ m, mlookup σ.mappings p = some m ∧ m.secret = s

/-- Well-formedness carried through runs: distinct forward keys plus the
consistency invariant. -/
def StoreWF (σ : GoMemoryStore) : Prop :=
  NodupKeys σ.mappings ∧ ConsistentFR σ

theorem storeWF_new (ttl : Nat) : StoreWF (newMemoryStore ttl) := by
  refine ⟨nodupKeys_nil, fun s p => ?_⟩
  simp [newMemoryStore, mlookup]

theorem storeWF_store {σ : GoMemoryStore} (h : StoreWF σ) {p s : String}
    (hs : storeSafe σ p s = true) (t : Nat) : StoreWF (memStore σ p s t) := by
  obtain ⟨hnd, hinv⟩ := h
  have hs1 : ∀ m, mlookup σ.mappings p = some m → m.secret = s := by
    intro m hm
    unfold storeSafe at hs
    rw [hm] at hs
    simp only [Bool.and_eq_true, beq_iff_eq] at hs
    exact hs.1
  have hs2 : ∀ q, mlookup σ.secretIndex s = some q → q = p := by
    intro q hq
    unfold storeSafe at hs
    rw [hq] at hs
    simp only [Bool.and_eq_true, beq_iff_eq] at hs
    exact hs.2
  refine ⟨nodupKeys_mupsert hnd _ _, fun s' p' => ?_⟩
  unfold memStore
  simp only
  rw [mlookup_mupsert, mlookup_mupsert]
  by_cases hss : s = s'
  · rw [if_pos hss]
    by_cases hpp : p = p'
    · rw [if_pos hpp]
      constructor
      · intro _
        exact ⟨_, rfl, hss⟩
      · intro _
        rw [hpp]
    · rw [if_neg hpp]
      constructor
      · intro he
        exact absurd (Option.some.inj he) hpp
      · rintro ⟨m, hm, hsec⟩
        have : mlookup σ.secretIndex s = some p' :=
          (hinv s p').mpr ⟨m, hm, hss ▸ hsec⟩
        exact absurd (hs2 p' this) (fun he => hpp he.symm)
  · rw [if_neg hss]
    by_cases hpp : p = p'
    · rw [if_pos hpp]
      constructor
      · intro he
        obtain ⟨m, hm, hsec⟩ := (hinv s' p').mp he
        rw [← hpp] at hm
        exact absurd ((hs1 m hm).symm.trans hsec) hss
      · rintro ⟨m, hm, hsec⟩
        have hms : m.secret = s := by rw [← Option.some.inj hm]
        exact absurd (hms.symm.trans hsec) hss
    · rw [if_neg hpp]
      exact hinv s' p'

theorem storeWF_touch {σ : GoMemoryStore} (h : StoreWF σ) (p : String) (t : Nat) :
    StoreWF (memTouch σ p t) := by
  obtain ⟨hnd, hinv⟩ := h
  unfold memTouch
  cases hm : mlookup σ.mappings p with
  | none => exact ⟨hnd, hinv⟩
  | some m =>
    refine ⟨nodupKeys_mupsert hnd _ _, fun s' p' => ?_⟩
    simp only
    rw [mlookup_mupsert]
    by_cases hpp : p = p'
    · rw [if_pos hpp]
      constructor
      · intro he
        obtain ⟨m', hm', hsec⟩ := (hinv s' p').mp he
        rw [← hpp, hm] at hm'
        exact ⟨_, rfl, by rw [show m = m' from Option.some.inj hm']; exact hsec⟩
      · rintro ⟨m', hm', hsec⟩
        apply (hinv s' p').mpr
        refine ⟨m, by rw [← hpp, hm], ?_⟩
        have : m' = { m with lastUsed := t } := (Option.some.inj hm').symm
        rw [show m.secret = m'.secret from by rw [this]]
        exact hsec
    · rw [if_neg hpp]
      exact hinv s' p'

theorem memLookup_snd_eq_touch (σ : GoMemoryStore) (p : String) (t : Nat) :
    (memLookup σ p t).2 = memTouch σ p t := by
  unfold memLookup memTouch
  cases mlookup σ.mappings p <;> rfl

theorem storeWF_lookupBySecret {σ : GoMemoryStore} (h : StoreWF σ)
    (s : String) (t : Nat) : StoreWF (memLookupBySecret σ s t).2 := by
  unfold memLookupBySecret
  cases mlookup σ.secretIndex s with
  | none => exact h
  | some p => exact storeWF_touch h p t

theorem mlookup_filter_notContains (es : List String)
    (l : List (String × String)) (k : String) :
    mlookup (l.filter (fun e => ! es.contains e.1)) k
      = if es.contains k then none else mlookup l k := by
  induction l with
  | nil => by_cases hc : es.contains k <;> simp [mlookup, hc]
  | cons e rest ih =>
    by_cases he : e.1 = k <;> by_cases hc : es.contains k <;>
      by_cases hpe : es.contains e.1 <;>
      simp_all [filter_cons_bool, mlookup_cons]

theorem mlookup_filter_notE {E : GoMapping → Bool} {l : List (String × GoMapping)}
    (hnd : NodupKeys l) (k : String) :
    mlookup (l.filter (fun e => ! E e.2)) k
      = (mlookup l k).bind (fun m => if E m then none else some m) := by
  induction l with
  | nil => simp [mlookup]
  | cons e rest ih =>
    obtain ⟨h1, h2⟩ := nodupKeys_cons_iff.mp hnd
    rw [filter_cons_bool]
    by_cases he : e.1 = k
    · have hre : mlookup rest k = none := by
        cases hr : mlookup rest k with
        | none => rfl
        | some v => exact absurd (mlookup_mem hr) (he ▸ h1 v)
      by_cases hp : E e.2
      · rw [if_neg (by simp [hp]), ih h2, mlookup_cons, if_pos he, hre]
        simp [hp]
      · rw [if_pos (by simp [hp]), mlookup_cons, if_pos he, mlookup_cons, if_pos he]
        simp [hp]
    · by_cases hp : E e.2
      · rw [if_neg (by simp [hp]), ih h2, mlookup_cons, if_neg he]
      · rw [if_pos (by simp [hp]), mlookup_cons, if_neg he, ih h2, mlookup_cons,
          if_neg he]

theorem expiredSecrets_spec (σ : GoMemoryStore) (now : Nat) (s : String) :
    ((σ.mappings.filter (fun e => expiredM σ.ttl now e.2)).map
        (fun e => e.2.secret)).contains s = true
      ↔ ∃ e ∈ σ.mappings, expiredM σ.ttl now e.2 = true ∧ e.2.secret = s := by
  rw [List.contains_iff_exists_mem_beq]
  constructor
  · rintro ⟨a, ha, hab⟩
    obtain ⟨e, he, hes⟩ := List.mem_map.mp ha
    obtain ⟨hem, hee⟩ := List.mem_filter.mp he
    exact ⟨e, hem, hee, by rw [hes]; exact ((beq_iff_eq ..).mp hab).symm⟩
  · rintro ⟨e, hem, hee, hes⟩
    exact ⟨s, List.mem_map.mpr ⟨e, List.mem_filter.mpr ⟨hem, hee⟩, hes⟩, by simp⟩

theorem storeWF_cleanup {σ : GoMemoryStore} (h : StoreWF σ) (now : Nat) :
    StoreWF (memCleanup σ now) := by
  obtain ⟨hnd, hinv⟩ := h
  refine ⟨nodupKeys_filter _ hnd, fun s' p' => ?_⟩
  unfold memCleanup
  simp only
  rw [mlookup_filter_notContains, mlookup_filter_notE hnd]
  by_cases hc : ((σ.mappings.filter (fun e => expiredM σ.ttl now e.2)).map
      (fun e => e.2.secret)).contains s' = true
  · rw [if_pos hc]
    constructor
    · intro he
      exact absurd he (by simp)
    · rintro ⟨m, hm, hsec⟩
      obtain ⟨e, hem, hee, hes⟩ := (expiredSecrets_spec σ now s').mp hc
      cases hv : mlookup σ.mappings p' with
      | none => rw [hv] at hm; simp at hm
      | some v =>
        rw [hv] at hm
        simp only [Option.some_bind] at hm
        by_cases hE : expiredM σ.ttl now v
        · rw [if_pos hE] at hm
          simp at hm
        · rw [if_neg hE] at hm
          have hvm : v = m := Option.some.inj hm
          subst hvm
          -- the expired entry e has the same secret s', so by consistency it
          -- is the same forward entry as (p', v) — contradiction with ¬hE
          have h1 : mlookup σ.secretIndex s' = some p' :=
            (hinv s' p').mpr ⟨v, hv, hsec⟩
          have h2 : mlookup σ.mappings e.1 = some e.2 := by
            have : (e.1, e.2) ∈ σ.mappings := by
              obtain ⟨e1, e2⟩ := e
              exact hem
            exact mem_mlookup hnd this
          have h3 : mlookup σ.secretIndex s' = some e.1 :=
            (hinv s' e.1).mpr ⟨e.2, h2, hes⟩
          have hpe : e.1 = p' := Option.some.inj (h3.symm.trans h1)
          rw [hpe, hv] at h2
          rw [Option.some.inj h2] at hE
          exact (hE hee).elim
  · rw [if_neg hc]
    constructor
    · intro he
      obtain ⟨m, hm, hsec⟩ := (hinv s' p').mp he
      refine ⟨m, ?_, hsec⟩
      rw [hm]
      simp only [Option.some_bind]
      rw [if_neg ?_]
      intro hE
      exact hc ((expiredSecrets_spec σ now s').mpr ⟨(p', m), mlookup_mem hm, hE, hsec⟩)
    · rintro ⟨m, hm, hsec⟩
      cases hv : mlookup σ.mappings p' with
      | none => rw [hv] at hm; simp at hm
      | some v =>
        rw [hv] at hm
        simp only [Option.some_bind] at hm
        by_cases hE : expiredM σ.ttl now v
        · rw [if_pos hE] at hm; simp at hm
        · rw [if_neg hE] at hm
          rw [Option.some.inj hm] at hv
          exact (hinv s' p').mpr ⟨m, hv, hsec⟩

theorem storeWF_run : ∀ (ops : List (Nat × SOp)) (σ : GoMemoryStore),
    StoreWF σ → safeRun σ ops = true → StoreWF (runOps σ ops) := by
  intro ops
  induction ops with
  | nil => exact fun σ h _ => h
  | cons op rest ih =>
    intro σ h hs
    obtain ⟨t, o⟩ := op
    unfold safeRun at hs
    simp only [Bool.and_eq_true] at hs
    have hnext : StoreWF (applyOp σ (t, o)) := by
      cases o with
      | store p s => exact storeWF_store h hs.1 t
      | lookup p =>
        show StoreWF (memLookup σ p t).2
        rw [memLookup_snd_eq_touch]
        exact storeWF_touch h p t
      | lookupBySecret s => exact storeWF_lookupBySecret h s t
      | touch p => exact storeWF_touch h p t
      | cleanup => exact storeWF_cleanup h t
    exact ih _ hnext hs.2

/-- C3 (amended): forward/reverse index consistency
(`reverse(secret) = placeholder ⇔ forward(placeholder).secret = secret`, and
`LookupBySecret(s) = (p, true) ⇒ Lookup(p) = (s, true)`) is preserved by
every sequence of `Store`, `Lookup`, `LookupBySecret`, `Touch` and `Cleanup`
operations, PROVIDED no `Store` rebinds an existing placeholder to a
different secret or an existing secret to a different placeholder
(`safeRun`).  A `Store` that overwrites a placeholder with a different secret
leaves a stale reverse entry and breaks the invariant — see the
counterexample. -/
theorem mapping_store_consistency (ttl : Nat) (ops : List (Nat × SOp))
    (hsafe : safeRun (newMemoryStore ttl) ops = true) :
    ConsistentFR (runOps (newMemoryStore ttl) ops)
    ∧ ∀ s p now now',
        (memLookupBySecret (runOps (newMemoryStore ttl) ops) s now).1 = (p, true)
        → (memLookup (runOps (newMemoryStore ttl) ops) p now').1 = (s, true) := by
  have hwf := storeWF_run ops _ (storeWF_new ttl) hsafe
  refine ⟨hwf.2, ?_⟩
  intro s p now now' hbs
  unfold memLookupBySecret at hbs
  cases hr : mlookup (runOps (newMemoryStore ttl) ops).secretIndex s with
  | none =>
    rw [hr] at hbs
    simp only [Prod.mk.injEq] at hbs
    exact absurd hbs.2 (by simp)
  | some q =>
    rw [hr] at hbs
    simp only [Prod.mk.injEq] at hbs
    rw [hbs.1] at hr
    obtain ⟨m, hm, hsec⟩ := (hwf.2 s p).mp hr
    unfold memLookup
    rw [hm]
    simp only
    rw [hsec]

/-- The operation sequence of the C3 counterexample: store `P ↦ a`, then
overwrite `P ↦ b`. -/
def opsC3cex : List (Nat × SOp) := [(0, .store "P" "a"), (1, .store "P" "b")]

/-- C3 counterexample: after `Store("P","a"); Store("P","b")` the claimed
invariant fails — `LookupBySecret("a")` still answers `("P", true)` via the
stale reverse entry, but `Lookup("P")` answers `("b", true)`, not
`("a", true)`. -/
theorem mapping_store_overwrite_breaks_consistency :
    (memLookupBySecret (runOps (newMemoryStore 3600) opsC3cex) "a" 2).1 = ("P", true)
    ∧ (memLookup (runOps (newMemoryStore 3600) opsC3cex) "P" 3).1 = ("b", true)
    ∧ (memLookup (runOps (newMemoryStore 3600) opsC3cex) "P" 3).1 ≠ ("a", true) := by
  exact ⟨by decide, by decide, by decide⟩

/-- A safe operation sequence used to instantiate `mapping_store_consistency`:
store, look up, re-store the same pair, and clean up. -/
def opsC3wit : List (Nat × SOp) :=
  [(0, .store "P1" "a"), (5, .lookup "P1"), (6, .store "P1" "a"),
   (7, .lookupBySecret "a"), (30, .cleanup)]

theorem mapping_store_consistency_witness :
    safeRun (newMemoryStore 10) opsC3wit = true
    ∧ ConsistentFR (runOps (newMemoryStore 10) opsC3wit) :=
  ⟨by decide, (mapping_store_consistency 10 opsC3wit (by decide)).1⟩

/-- Times of an operation sequence are nondecreasing and start at or after
`lo` (a monotone wall clock, as `time.Now()` guarantees). -/
def timesMono : Nat → List (Nat × SOp) → Bool
  | _, [] => true
  | lo, (t, _) :: rest => (lo ≤ t) && timesMono t rest

/-- Checker for the claim's "lookups at intervals shorter than ttl" premise:
track the last time `lu` the entry `p` was refreshed (store / lookup / touch
of `p`); every cleanup must happen within `ttl` of that refresh.
`LookupBySecret` is conservatively not counted as a refresh. -/
def goodRun (p : String) (ttl : Nat) : Nat → List (Nat × SOp) → Bool
  | _, [] => true
  | lu, (t, op) :: rest =>
    match op with
    | .cleanup => (t - lu ≤ ttl) && goodRun p ttl lu rest
    | .store q _ => goodRun p ttl (if q = p then t else lu) rest
    | .lookup q => goodRun p ttl (if q = p then t else lu) rest
    | .touch q => goodRun p ttl (if q = p then t else lu) rest
    | .lookupBySecret _ => goodRun p ttl lu rest

theorem nodupKeys_memTouch {σ : GoMemoryStore} (hnd : NodupKeys σ.mappings)
    (p : String) (t : Nat) : NodupKeys (memTouch σ p t).mappings := by
  unfold memTouch
  cases mlookup σ.mappings p with
  | none => exact hnd
  | some m => exact nodupKeys_mupsert hnd _ _

theorem nodupKeys_applyOp {σ : GoMemoryStore} (hnd : NodupKeys σ.mappings)
    (op : Nat × SOp) : NodupKeys (applyOp σ op).mappings := by
  obtain ⟨t, o⟩ := op
  cases o with
  | store p s => exact nodupKeys_mupsert hnd _ _
  | lookup p =>
    show NodupKeys (memLookup σ p t).2.mappings
    rw [memLookup_snd_eq_touch]
    exact nodupKeys_memTouch hnd p t
  | lookupBySecret s =>
    show NodupKeys (memLookupBySecret σ s t).2.mappings
    unfold memLookupBySecret
    cases mlookup σ.secretIndex s with
    | none => exact hnd
    | some p => exact nodupKeys_memTouch hnd p t
  | touch p => exact nodupKeys_memTouch hnd p t
  | cleanup => exact nodupKeys_filter _ hnd

theorem applyOp_ttl (σ : GoMemoryStore) (op : Nat × SOp) :
    (applyOp σ op).ttl = σ.ttl := by
  obtain ⟨t, o⟩ := op
  cases o with
  | store p s => rfl
  | lookup p =>
    show (memLookup σ p t).2.ttl = σ.ttl
    rw [memLookup_snd_eq_touch]
    unfold memTouch
    cases mlookup σ.mappings p <;> rfl
  | lookupBySecret s =>
    show (memLookupBySecret σ s t).2.ttl = σ.ttl
    unfold memLookupBySecret
    cases mlookup σ.secretIndex s with
    | none => rfl
    | some p =>
      show (memTouch σ p t).ttl = σ.ttl
      unfold memTouch
      cases mlookup σ.mappings p <;> rfl
  | touch p =>
    show (memTouch σ p t).ttl = σ.ttl
    unfold memTouch
    cases mlookup σ.mappings p <;> rfl
  | cleanup => rfl

theorem memTouch_entry {σ : GoMemoryStore} {p q : String} {m : GoMapping}
    (hm : mlookup σ.mappings p = some m) (t : Nat) :
    mlookup (memTouch σ q t).mappings p
      = if q = p then some { m with lastUsed := t } else some m := by
  unfold memTouch
  by_cases hqp : q = p
  · rw [if_pos hqp, hqp, hm]
    simp only
    rw [mlookup_mupsert, if_pos rfl]
  · rw [if_neg hqp]
    cases hv : mlookup σ.mappings q with
    | none => exact hm
    | some v =>
      simp only
      rw [mlookup_mupsert, if_neg hqp, hm]

theorem memCleanup_entry {σ : GoMemoryStore} (hnd : NodupKeys σ.mappings)
    (now : Nat) (p : String) (m : GoMapping) :
    mlookup (memCleanup σ now).mappings p = some m
      ↔ mlookup σ.mappings p = some m ∧ now - m.lastUsed ≤ σ.ttl := by
  unfold memCleanup
  simp only
  rw [mlookup_filter_notE hnd]
  cases hv : mlookup σ.mappings p with
  | none => simp
  | some v =>
    simp only [Option.some_bind]
    by_cases hE : expiredM σ.ttl now v
    · rw [if_pos hE]
      constructor
      · intro he
        simp at he
      · rintro ⟨hvm, hle⟩
        rw [Option.some.inj hvm] at hE
        unfold expiredM at hE
        simp only [decide_eq_true_eq] at hE
        omega
    · rw [if_neg hE]
      constructor
      · intro he
        refine ⟨he, ?_⟩
        rw [← Option.some.inj he]
        unfold expiredM at hE
        simp only [Bool.not_eq_true, decide_eq_false_iff_not] at hE
        omega
      · exact fun h => h.1

theorem entry_survives : ∀ (ops : List (Nat × SOp)) (σ : GoMemoryStore)
    (p : String) (lu lo : Nat), NodupKeys σ.mappings →
    (∃ m, mlookup σ.mappings p = some m ∧ lu ≤ m.lastUsed) →
    lu ≤ lo → timesMono lo ops = true → goodRun p σ.ttl lu ops = true →
    ∃ m', mlookup (runOps σ ops).mappings p = some m' := by
  intro ops
  induction ops with
  | nil =>
    rintro σ p lu lo _ ⟨m, hm, _⟩ _ _ _
    exact ⟨m, hm⟩
  | cons op rest ih =>
    rintro σ p lu lo hnd ⟨m, hm, hlu⟩ hlo htm hgr
    obtain ⟨t, o⟩ := op
    unfold timesMono at htm
    simp only [Bool.and_eq_true, decide_eq_true_eq] at htm
    obtain ⟨hlot, htm'⟩ := htm
    have hnd' := nodupKeys_applyOp hnd (t, o)
    have httl := applyOp_ttl σ (t, o)
    have hlut : lu ≤ t := le_trans hlo hlot
    cases o with
    | store q s =>
      unfold goodRun at hgr
      dsimp only at hgr
      by_cases hqp : q = p
      · rw [if_pos hqp] at hgr
        refine ih _ p t t hnd' ⟨⟨s, q, t, t⟩, ?_, le_refl t⟩ (le_refl t)
          htm' (httl ▸ hgr)
        show mlookup (memStore σ q s t).mappings p = _
        unfold memStore
        simp only
        rw [mlookup_mupsert, if_pos hqp]
      · rw [if_neg hqp] at hgr
        refine ih _ p lu t hnd' ⟨m, ?_, hlu⟩ hlut htm' (httl ▸ hgr)
        show mlookup (memStore σ q s t).mappings p = _
        unfold memStore
        simp only
        rw [mlookup_mupsert, if_neg hqp]
        exact hm
    | lookup q =>
      unfold goodRun at hgr
      dsimp only at hgr
      have hstep : (applyOp σ (t, SOp.lookup q)) = memTouch σ q t :=
        memLookup_snd_eq_touch σ q t
      by_cases hqp : q = p
      · rw [if_pos hqp] at hgr
        refine ih _ p t t hnd' ⟨{ m with lastUsed := t }, ?_, le_refl t⟩
          (le_refl t) htm' (httl ▸ hgr)
        rw [hstep, memTouch_entry hm, if_pos hqp]
      · rw [if_neg hqp] at hgr
        refine ih _ p lu t hnd' ⟨m, ?_, hlu⟩ hlut htm' (httl ▸ hgr)
        rw [hstep, memTouch_entry hm, if_neg hqp]
    | touch q =>
      unfold goodRun at hgr
      dsimp only at hgr
      by_cases hqp : q = p
      · rw [if_pos hqp] at hgr
        refine ih _ p t t hnd' ⟨{ m with lastUsed := t }, ?_, le_refl t⟩
          (le_refl t) htm' (httl ▸ hgr)
        show mlookup (memTouch σ q t).mappings p = _
        rw [memTouch_entry hm, if_pos hqp]
      · rw [if_neg hqp] at hgr
        refine ih _ p lu t hnd' ⟨m, ?_, hlu⟩ hlut htm' (httl ▸ hgr)
        show mlookup (memTouch σ q t).mappings p = _
        rw [memTouch_entry hm, if_neg hqp]
    | lookupBySecret s =>
      unfold goodRun at hgr
      dsimp only at hgr
      have hstep : applyOp σ (t, SOp.lookupBySecret s) = (memLookupBySecret σ s t).2 := rfl
      refine ih _ p lu t hnd' ?_ hlut htm' (httl ▸ hgr)
      rw [hstep]
      unfold memLookupBySecret
      cases mlookup σ.secretIndex s with
      | none => exact ⟨m, hm, hlu⟩
      | some q =>
        by_cases hqp : q = p
        · refine ⟨{ m with lastUsed := t }, ?_, hlut⟩
          show mlookup (memTouch σ q t).mappings p = _
          rw [memTouch_entry hm, if_pos hqp]
        · refine ⟨m, ?_, hlu⟩
          show mlookup (memTouch σ q t).mappings p = _
          rw [memTouch_entry hm, if_neg hqp]
    | cleanup =>
      unfold goodRun at hgr
      dsimp only at hgr
      simp only [Bool.and_eq_true, decide_eq_true_eq] at hgr
      obtain ⟨hwin, hgr'⟩ := hgr
      refine ih _ p lu t hnd' ⟨m, ?_, hlu⟩ hlut htm' (httl ▸ hgr')
      show mlookup (memCleanup σ t).mappings p = _
      rw [memCleanup_entry hnd]
      exact ⟨hm, by omega⟩

/-- C9: TTL touch semantics of the in-memory store.
(i) every successful `Lookup(p)` returns the stored secret and refreshes
`last_used_at` to the lookup time;
(ii) `Cleanup(now)` keeps an entry exactly when `now − last_used_at ≤ ttl` —
so only entries with `now − last_used_at > ttl` are removed, and after a gap
longer than `ttl` with no refresh a `Cleanup` removes the entry;
(iii) over any monotone-time operation sequence in which every `Cleanup`
happens within `ttl` of the entry's last refresh (store/lookup/touch of `p`,
checked by `goodRun`), the entry survives the whole run. -/
theorem ttl_touch_semantics :
    (∀ (σ : GoMemoryStore) (p : String) (m : GoMapping) (now : Nat),
        mlookup σ.mappings p = some m →
        (memLookup σ p now).1 = (m.secret, true)
        ∧ mlookup ((memLookup σ p now).2).mappings p
            = some { m with lastUsed := now })
    ∧ (∀ (σ : GoMemoryStore) (now : Nat) (p : String) (m : GoMapping),
        NodupKeys σ.mappings →
        (mlookup (memCleanup σ now).mappings p = some m
          ↔ mlookup σ.mappings p = some m ∧ now - m.lastUsed ≤ σ.ttl))
    ∧ (∀ (ops : List (Nat × SOp)) (σ : GoMemoryStore) (p : String)
          (lu lo : Nat), NodupKeys σ.mappings →
        (∃ m, mlookup σ.mappings p = some m ∧ lu ≤ m.lastUsed) →
        lu ≤ lo → timesMono lo ops = true → goodRun p σ.ttl lu ops = true →
        ∃ m', mlookup (runOps σ ops).mappings p = some m') := by
  refine ⟨?_, ?_, entry_survives⟩
  · intro σ p m now hm
    constructor
    · unfold memLookup
      rw [hm]
    · unfold memLookup
      rw [hm]
      simp only
      rw [mlookup_mupsert, if_pos rfl]
  · intro σ now p m hnd
    exact memCleanup_entry hnd now p m

/-- The store state and operation run instantiating `ttl_touch_semantics`:
a single entry refreshed by lookups at intervals below the TTL surviving two
cleanups. -/
def sigC9 : GoMemoryStore :=
  { mappings := [("P", ⟨"sec", "P", 0, 0⟩)], secretIndex := [("sec", "P")],
    ttl := 10, closed := false }

theorem ttl_touch_semantics_witness :
    (mlookup sigC9.mappings "P" = some ⟨"sec", "P", 0, 0⟩
      ∧ (memLookup sigC9 "P" 4).1 = ("sec", true))
    ∧ (NodupKeys sigC9.mappings
      ∧ (mlookup (memCleanup sigC9 11).mappings "P" = none)
      ∧ mlookup (memCleanup sigC9 9).mappings "P" = some ⟨"sec", "P", 0, 0⟩)
    ∧ ∃ m', mlookup (runOps sigC9
        [(4, .lookup "P"), (12, .cleanup), (13, .lookup "P"), (22, .cleanup)]).mappings
        "P" = some m' := by
  have hnd : NodupKeys sigC9.mappings := by
    unfold NodupKeys
    decide
  refine ⟨⟨by decide, ?_⟩, ⟨hnd, by decide, by decide⟩, ?_⟩
  · exact (ttl_touch_semantics.1 sigC9 "P" ⟨"sec", "P", 0, 0⟩ 4 (by decide)).1
  · exact ttl_touch_semantics.2.2
      [(4, .lookup "P"), (12, .cleanup), (13, .lookup "P"), (22, .cleanup)]
      sigC9 "P" 0 0 hnd ⟨⟨"sec", "P", 0, 0⟩, by decide, by decide⟩
      (by decide) (by decide) (by decide)

/-! ## Detected secrets and the request-leg replacement loop
(`internal/interceptor/interceptor.go`, `internal/proxy/proxy.go`) -/

/-- `interceptor.DetectedSecret` (`internal/interceptor/interceptor.go`).
`Confidence` is `float64` in Go; it is modelled as an exact rational, which
only enters comparisons. -/
structure DetectedSecret where
  value : List Char
  startIndex : Nat
  endIndex : Nat
  type : String
  confidence : ℚ
  source : String
deriving DecidableEq, Repr

/-- `replaceSecret` (`internal/proxy/proxy.go`):
`content[:secret.StartIndex] + placeholder + content[secret.EndIndex:]`.
Go string slicing panics when an index exceeds the length; `none` models
that panic. -/
def replaceSecretGo (content : List Char) (s e : Nat) (ph : List Char) :
    Option (List Char) :=
  if s ≤ content.length ∧ e ≤ content.length then
    some (content.take s ++ ph ++ content.drop e)
  else none

/-- The per-message replacement loop of `Server.processRequest`
(`internal/proxy/proxy.go`): iterate over the findings IN THE ORDER
`DetectAll` returned them (ascending `StartIndex`) and splice each with its
placeholder at its original offsets via `replaceSecret`.  `gen` abstracts
`Generator.Generate` (the SHA-256-derived placeholder). -/
def serverReplaceLoop (gen : List Char → List Char) (content : List Char) :
    List DetectedSecret → Option (List Char)
  | [] => some content
  | f :: fs =>
    match replaceSecretGo content f.startIndex f.endIndex (gen f.value) with
    | none => none
    | some content' => serverReplaceLoop gen content' fs

/-- Concrete placeholder images for the two secrets of the C5 input (any
8-hex-digit hashes; the corruption does not depend on their values). -/
def genC5 : List Char → List Char := fun v =>
  if v.head? = some 'A' then "__SECRET_aaaaaaaa__".toList
  else "__SECRET_bbbbbbbb__".toList

/-- The C5 message content: two 20-byte secrets at ranges [6,26) and
[37,57), one trailing byte `!` outside every finding. -/
def c5content : List Char :=
  "Key1: AAAAAAAAAAAAAAAAAAAA and Key2: BBBBBBBBBBBBBBBBBBBB!".toList

/-- The two findings, as `DetectAll` returns them (ascending start). -/
def c5findings : List DetectedSecret :=
  [⟨"AAAAAAAAAAAAAAAAAAAA".toList, 6, 26, "high_entropy", 1, "entropy"⟩,
   ⟨"BBBBBBBBBBBBBBBBBBBB".toList, 37, 57, "high_entropy", 1, "entropy"⟩]

/-- What offset-preserving splicing must produce: each finding's range
replaced by its placeholder, all other bytes unchanged. -/
def c5expected : List Char :=
  "Key1: __SECRET_aaaaaaaa__ and Key2: __SECRET_bbbbbbbb__!".toList

/-- C5: the request leg does NOT iterate from the highest start offset to
the lowest.  `Server.processRequest` splices the findings in ascending
order with their ORIGINAL offsets, so after the first splice (placeholder
shorter than the secret) the second finding's offsets are stale: the output
keeps a stray `B` of the second secret and loses the trailing `!` — bytes
outside the findings' ranges are changed.  (`Replacer.Replace`,
src/unnamed/part_010, sorts descending and is correct, but the proxy engine
re-implements the loop ascending.) -/
theorem proxy_ascending_splice_corrupts :
    serverReplaceLoop genC5 c5content c5findings
      = some "Key1: __SECRET_aaaaaaaa__ and Key2: B__SECRET_bbbbbbbb__".toList
    ∧ serverReplaceLoop genC5 c5content c5findings ≠ some c5expected := by
  exact ⟨by decide, by decide⟩

/-! ## Detector manager (`internal/interceptor/interceptor.go`) -/

/-- Comparison key of both `sort.Slice` calls in `DetectAll` /
`deduplicateSecrets`: ascending `StartIndex`. -/
def startLE (a b : DetectedSecret) : Prop := a.startIndex ≤ b.startIndex

/-- Strong separation of two findings kept by the overlap sweep: disjoint
and in ascending position. -/
def sepR (a b : DetectedSecret) : Prop :=
  a.endIndex ≤ b.startIndex ∧ a.startIndex ≤ b.startIndex

/-- Two findings' ranges do not overlap (symmetric form). -/
def NoOverlapPair (a b : DetectedSecret) : Prop :=
  a.endIndex ≤ b.startIndex ∨ b.endIndex ≤ a.startIndex

/-- Insertion step of the sorting model.  Go uses `sort.Slice` with
`less = StartIndex <`; the sorted RESULT is what `DetectAll`'s
postconditions depend on, and insertion sort is a deterministic model of
it. -/
def insertAsc (f : DetectedSecret) : List DetectedSecret → List DetectedSecret
  | [] => [f]
  | g :: gs =>
    if f.startIndex < g.startIndex then f :: g :: gs else g :: insertAsc f gs

/-- Sort by ascending `StartIndex` (model of the `sort.Slice` calls). -/
def sortAsc (l : List DetectedSecret) : List DetectedSecret :=
  l.foldr insertAsc []

theorem insertAsc_perm (f : DetectedSecret) (l : List DetectedSecret) :
    (insertAsc f l).Perm (f :: l) := by
  induction l with
  | nil => exact List.Perm.refl _
  | cons g gs ih =>
    unfold insertAsc
    by_cases h : f.startIndex < g.startIndex
    · rw [if_pos h]
    · rw [if_neg h]
      exact List.Perm.trans (List.Perm.cons g ih) (List.Perm.swap f g gs)

theorem insertAsc_sorted {l : List DetectedSecret} (hs : l.Pairwise startLE)
    (f : DetectedSecret) : (insertAsc f l).Pairwise startLE := by
  induction l with
  | nil => simp [insertAsc]
  | cons g gs ih =>
    obtain ⟨hg, hgs⟩ := List.pairwise_cons.mp hs
    unfold insertAsc
    by_cases h : f.startIndex < g.startIndex
    · rw [if_pos h]
      refine List.pairwise_cons.mpr ⟨?_, hs⟩
      intro b hb
      rcases List.mem_cons.mp hb with hb | hb
      · exact hb ▸ le_of_lt h
      · exact le_trans (le_of_lt h) (hg b hb)
    · rw [if_neg h]
      refine List.pairwise_cons.mpr ⟨?_, ih hgs⟩
      intro b hb
      rcases List.mem_cons.mp ((insertAsc_perm f gs).mem_iff.mp hb) with hb | hb
      · exact hb ▸ le_of_not_lt h
      · exact hg b hb

theorem sortAsc_perm (l : List DetectedSecret) : (sortAsc l).Perm l := by
  induction l with
  | nil => exact List.Perm.refl _
  | cons f fs ih =>
    exact List.Perm.trans (insertAsc_perm f (sortAsc fs)) (List.Perm.cons f ih)

theorem sortAsc_sorted (l : List DetectedSecret) :
    (sortAsc l).Pairwise startLE := by
  induction l with
  | nil => simp [sortAsc]
  | cons f fs ih => exact insertAsc_sorted ih f

/-- One step of the value-dedup map of `deduplicateSecrets`
(`seen[value]`): if a representative with the same `Value` exists, replace
it when the new confidence is strictly higher; otherwise add the new
finding. -/
def seenUpdate (acc : List DetectedSecret) (s : DetectedSecret) :
    List DetectedSecret :=
  if acc.any (fun x => x.value = s.value) then
    acc.map (fun x =>
      if x.value = s.value ∧ x.confidence < s.confidence then s else x)
  else acc ++ [s]

/-- The "group by exact value, keep the highest-confidence representative"
pass of `deduplicateSecrets`.  The Go `seen` map is modelled as a list of
representatives in first-encounter order; Go's random map-iteration order is
immaterial because the result is sorted by start right after. -/
def dedupByValue (ss : List DetectedSecret) : List DetectedSecret :=
  ss.foldl seenUpdate []

/-- The left-to-right overlap sweep of `deduplicateSecrets`: walk the
sorted findings keeping `last`; an overlapping successor replaces `last`
only when strictly more confident (`current.Confidence > last.Confidence`);
a disjoint successor is appended. -/
def sweepGo (last : DetectedSecret) : List DetectedSecret → List DetectedSecret
  | [] => [last]
  | c :: rest =>
    if c.startIndex < last.endIndex then
      if last.confidence < c.confidence then sweepGo c rest
      else sweepGo last rest
    else last :: sweepGo c rest

/-- `Manager.deduplicateSecrets`: value-dedup, sort by start, overlap sweep.
(The Go early returns for lists of length ≤ 1 coincide with `sweepGo x []`
= `[x]`, so only the length-≤-1 short-circuit on the INPUT is kept
explicitly.) -/
def deduplicateSecrets (ss : List DetectedSecret) : List DetectedSecret :=
  if ss.length ≤ 1 then ss
  else
    match sortAsc (dedupByValue ss) with
    | [] => []
    | x :: xs => sweepGo x xs

/-- The aggregation loop of `Manager.DetectAll`: run every enabled
interceptor and tag each finding with the interceptor's name.  An
interceptor is `(enabled, name, detect)`. -/
def runDetectors
    (detectors : List (Bool × String × (List Char → List DetectedSecret)))
    (text : List Char) : List DetectedSecret :=
  detectors.foldl
    (fun acc d =>
      if d.1 then acc ++ (d.2.2 text).map (fun s => { s with source := d.2.1 })
      else acc) []

/-- `Manager.DetectAll`: aggregate, deduplicate, sort by position. -/
def detectAll
    (detectors : List (Bool × String × (List Char → List DetectedSecret)))
    (text : List Char) : List DetectedSecret :=
  sortAsc (deduplicateSecrets (runDetectors detectors text))

instance : IsTrans DetectedSecret sepR :=
  ⟨fun _ _ _ hab hbc => ⟨le_trans hab.1 hbc.2, le_trans hab.2 hbc.2⟩⟩

theorem sweepGo_sound : ∀ (xs : List DetectedSecret) (last : DetectedSecret),
    List.Chain' startLE (last :: xs) →
    ∃ h t, sweepGo last xs = h :: t ∧ last.startIndex ≤ h.startIndex
      ∧ List.Chain' sepR (h :: t) := by
  intro xs
  induction xs with
  | nil =>
    intro last _
    exact ⟨last, [], rfl, le_refl _, List.chain'_singleton last⟩
  | cons c rest ih =>
    intro last hch
    rw [List.chain'_cons] at hch
    obtain ⟨hlc, hcrest⟩ := hch
    unfold sweepGo
    by_cases hov : c.startIndex < last.endIndex
    · rw [if_pos hov]
      by_cases hcf : last.confidence < c.confidence
      · rw [if_pos hcf]
        obtain ⟨h, t, he, hs, hc⟩ := ih c hcrest
        exact ⟨h, t, he, le_trans hlc hs, hc⟩
      · rw [if_neg hcf]
        have hch' : List.Chain' startLE (last :: rest) := by
          cases rest with
          | nil => exact List.chain'_singleton last
          | cons r rs =>
            rw [List.chain'_cons] at hcrest ⊢
            exact ⟨le_trans hlc hcrest.1, hcrest.2⟩
        exact ih last hch'
    · rw [if_neg hov]
      obtain ⟨h, t, he, hs, hc⟩ := ih c hcrest
      rw [he]
      refine ⟨last, h :: t, rfl, le_refl _, ?_⟩
      rw [List.chain'_cons]
      exact ⟨⟨le_trans (le_of_not_lt hov) hs, le_trans hlc hs⟩, hc⟩

theorem sweepGo_sublist : ∀ (xs : List DetectedSecret) (last : DetectedSecret),
    (sweepGo last xs).Sublist (last :: xs) := by
  intro xs
  induction xs with
  | nil => exact fun last => List.Sublist.refl _
  | cons c rest ih =>
    intro last
    unfold sweepGo
    by_cases hov : c.startIndex < last.endIndex
    · rw [if_pos hov]
      by_cases hcf : last.confidence < c.confidence
      · rw [if_pos hcf]
        exact List.Sublist.trans (ih c) (List.sublist_cons_self _ _)
      · rw [if_neg hcf]
        exact List.Sublist.trans (ih last)
          (List.Sublist.cons₂ last (List.sublist_cons_self c rest))
    · rw [if_neg hov]
      exact List.Sublist.cons₂ last (ih c)

theorem dedupByValue_aux : ∀ (ss acc : List DetectedSecret),
    ((acc.map (fun s => s.value)).Nodup) →
    (((ss.foldl seenUpdate acc).map (fun s => s.value)).Nodup
      ∧ ∀ x ∈ ss.foldl seenUpdate acc, x ∈ acc ∨ x ∈ ss) := by
  intro ss
  induction ss with
  | nil => exact fun acc hacc => ⟨hacc, fun x hx => Or.inl hx⟩
  | cons s rest ih =>
    intro acc hacc
    rw [List.foldl_cons]
    have hstep : ((seenUpdate acc s).map (fun x => x.value)).Nodup
        ∧ ∀ x ∈ seenUpdate acc s, x ∈ acc ∨ x = s := by
      unfold seenUpdate
      by_cases hany : acc.any (fun x => x.value = s.value)
      · rw [if_pos hany]
        constructor
        · have hmv : (acc.map (fun x =>
              if x.value = s.value ∧ x.confidence < s.confidence then s
              else x)).map (fun x => x.value) = acc.map (fun x => x.value) := by
            rw [List.map_map]
            apply List.map_congr_left
            intro x _
            by_cases hx : x.value = s.value ∧ x.confidence < s.confidence
            · simp only [Function.comp_apply, if_pos hx]
              exact hx.1.symm
            · simp only [Function.comp_apply, if_neg hx]
          rw [hmv]
          exact hacc
        · intro x hx
          obtain ⟨y, hy, hyx⟩ := List.mem_map.mp hx
          by_cases hcond : y.value = s.value ∧ y.confidence < s.confidence
          · rw [if_pos hcond] at hyx
            exact Or.inr hyx.symm
          · rw [if_neg hcond] at hyx
            exact Or.inl (hyx ▸ hy)
      · rw [if_neg hany]
        constructor
        · rw [List.map_append]
          apply List.Nodup.append hacc (by simp)
          intro v hv1 hv2
          simp only [List.map_cons, List.map_nil, List.mem_singleton] at hv2
          obtain ⟨y, hy, hyv⟩ := List.mem_map.mp hv1
          rw [List.any_eq_true] at hany
          exact hany ⟨y, hy, by simp [hyv, hv2]⟩
        · intro x hx
          rcases List.mem_append.mp hx with hx | hx
          · exact Or.inl hx
          · exact Or.inr (List.mem_singleton.mp hx)
    obtain ⟨hn, hm⟩ := ih (seenUpdate acc s) hstep.1
    refine ⟨hn, fun x hx => ?_⟩
    rcases hm x hx with hx' | hx'
    · rcases hstep.2 x hx' with h | h
      · exact Or.inl h
      · exact Or.inr (h ▸ List.mem_cons_self s rest)
    · exact Or.inr (List.mem_cons_of_mem s hx')

theorem dedup_sound (ss : List DetectedSecret) :
    (deduplicateSecrets ss).Pairwise sepR
    ∧ ((deduplicateSecrets ss).map (fun s => s.value)).Nodup
    ∧ ∀ x ∈ deduplicateSecrets ss, x ∈ ss := by
  unfold deduplicateSecrets
  by_cases hlen : ss.length ≤ 1
  · rw [if_pos hlen]
    match ss, hlen with
    | [], _ => exact ⟨by simp, by simp, by simp⟩
    | [a], _ => exact ⟨by simp, by simp, by simp⟩
  · rw [if_neg hlen]
    have hvn : ((dedupByValue ss).map (fun s => s.value)).Nodup :=
      (dedupByValue_aux ss [] (by simp)).1
    have hsub : ∀ x ∈ dedupByValue ss, x ∈ ss := by
      intro x hx
      rcases (dedupByValue_aux ss [] (by simp)).2 x hx with h | h
      · simp at h
      · exact h
    have hperm : (sortAsc (dedupByValue ss)).Perm (dedupByValue ss) :=
      sortAsc_perm _
    have hsorted : (sortAsc (dedupByValue ss)).Pairwise startLE :=
      sortAsc_sorted _
    cases hsplit : sortAsc (dedupByValue ss) with
    | nil => exact ⟨by simp, by simp, by simp⟩
    | cons x xs =>
      rw [hsplit] at hperm hsorted
      obtain ⟨h, t, he, _, hchain⟩ :=
        sweepGo_sound xs x (List.Pairwise.chain' hsorted)
      dsimp only
      rw [he]
      have hsl : (sweepGo x xs).Sublist (x :: xs) := sweepGo_sublist xs x
      rw [he] at hsl
      refine ⟨List.chain'_iff_pairwise.mp hchain, ?_, ?_⟩
      · apply List.Nodup.sublist (List.Sublist.map (fun s => s.value) hsl)
        exact (hperm.map (fun s => s.value)).nodup_iff.mpr hvn
      · intro y hy
        exact hsub y (hperm.mem_iff.mp (hsl.mem hy))

/-- C6: `Manager.DetectAll`'s deduplication postcondition.  For every set of
registered detectors and every input text the returned list is sorted by
start offset ascending, contains no two findings with overlapping ranges,
contains no two findings with identical `Value`, and every returned finding
is one the (enabled) detectors produced.  (The higher-confidence-wins /
first-encountered-on-ties choices are the `seenUpdate` / `sweepGo` steps of
the definition itself.) -/
theorem detectAll_dedup_postcondition
    (detectors : List (Bool × String × (List Char → List DetectedSecret)))
    (text : List Char) :
    (detectAll detectors text).Pairwise startLE
    ∧ (detectAll detectors text).Pairwise NoOverlapPair
    ∧ ((detectAll detectors text).map (fun s => s.value)).Nodup
    ∧ ∀ s ∈ detectAll detectors text, s ∈ runDetectors detectors text := by
  obtain ⟨hsep, hvals, hsub⟩ := dedup_sound (runDetectors detectors text)
  have hperm : (detectAll detectors text).Perm
      (deduplicateSecrets (runDetectors detectors text)) := sortAsc_perm _
  have hsym : Symmetric NoOverlapPair := fun a b h => h.elim Or.inr Or.inl
  refine ⟨sortAsc_sorted _, ?_, ?_, ?_⟩
  · exact (List.Perm.pairwise_iff (fun h2 => hsym h2) hperm.symm).mp
      (hsep.imp (fun h => Or.inl h.1))
  · exact (hperm.map (fun s => s.value)).nodup_iff.mpr hvals
  · exact fun s hs => hsub s (hperm.mem_iff.mp hs)

/-! ## Entropy detector (src/unnamed/part_011 — the interceptor-package
entropy detector implementing the `SecretInterceptor` interface; the copy at
`internal/interceptor/entropy.go` is a stale earlier revision lacking
`BaseInterceptor` and most of the heuristic set) -/

/-- The candidate character class `[A-Za-z0-9+/=_\-]` of the regex in
`EntropyInterceptor.Detect`. -/
def isClassChar (c : Char) : Bool :=
  c.isAlpha || c.isDigit || c = '+' || c = '/' || c = '=' || c = '_' || c = '-'

/-- Scanner state machine enumerating the maximal runs of class characters
of a text with their byte ranges: `st = some s` means a run started at `s`
is open.  This is the match enumeration of Go's
`FindAllStringIndex` for the single-class regex (leftmost matches of
`[class]{8,}` are exactly the maximal class-runs of length ≥ 8; the length
filter is applied in `findCandidates`). -/
def runsGo : List Char → Nat → Option Nat → List (Nat × Nat)
  | [], _, none => []
  | [], pos, some s => [(s, pos)]
  | c :: cs, pos, none =>
    if isClassChar c then runsGo cs (pos + 1) (some pos)
    else runsGo cs (pos + 1) none
  | c :: cs, pos, some s =>
    if isClassChar c then runsGo cs (pos + 1) (some s)
    else (s, pos) :: runsGo cs (pos + 1) none

/-- `pattern.FindAllStringIndex(text, -1)` for
`[A-Za-z0-9+/=_\-]{8,}`: the maximal class-runs of length at least 8. -/
def findCandidates (t : List Char) : List (Nat × Nat) :=
  (runsGo t 0 none).filter (fun r => 8 ≤ r.2 - r.1)

/-- `text[start:end]` as a list slice. -/
def extractL (t : List Char) (s e : Nat) : List Char := (t.drop s).take (e - s)

/-- `isLowercaseWord` (src/unnamed/part_011): no uppercase letter and no
digit. -/
def isLowercaseWord (s : List Char) : Bool :=
  s.all (fun c => !(c.isUpper || c.isDigit))

/-- The `commonKeywords` set (src/unnamed/part_011). -/
def commonKeywords : List (List Char) :=
  ["function", "return", "import", "export",
   "const", "class", "interface", "package",
   "undefined", "null", "true", "false",
   "string", "number", "boolean", "object",
   "async", "await", "promise", "callback",
   "localhost", "githubusercontent", "example"].map String.toList

/-- `isCommonKeyword`: membership of the lowercased candidate in
`commonKeywords`. -/
def isCommonKeyword (lower : List Char) : Bool :=
  commonKeywords.any (fun k => k = lower)

/-- `strings.HasPrefix` on char lists. -/
def hasPrefixL (p s : List Char) : Bool := (stripLit p s).isSome

/-- `isPathOrURL` (src/unnamed/part_011). -/
def isPathOrURL (s lower : List Char) : Bool :=
  hasPrefixL "/".toList s || hasPrefixL "./".toList s ||
  hasPrefixL "http".toList lower || hasPrefixL "www".toList lower

/-- `isFileExtension` (src/unnamed/part_011). -/
def isFileExtension (s lower : List Char) : Bool :=
  hasPrefixL ".".toList s ||
  ([".js", ".ts", ".go", ".py", ".json"].map String.toList).any
    (fun ext => ext.isSuffixOf lower)

/-- `isShortBase64` (src/unnamed/part_011): `==` suffix and length < 20. -/
def isShortBase64 (s : List Char) : Bool :=
  "==".toList.isSuffixOf s && s.length < 20

/-- Consume `n` hex digits (`[0-9a-f]`), returning the remainder. -/
def hexRun (n : Nat) (l : List Char) : Option (List Char) :=
  (takeHex n l).map (fun r => r.2)

/-- Consume a literal dash. -/
def dashThen : List Char → Option (List Char)
  | '-' :: r => some r
  | _ => none

/-- The anchored UUID pattern
`^[0-9a-f]{8}-[0-9a-f]{4}-[0-9a-f]{4}-[0-9a-f]{4}-[0-9a-f]{12}$`
(`uuidPattern`, src/unnamed/part_011). -/
def uuidMatch (l : List Char) : Bool :=
  match ((((((((hexRun 8 l).bind dashThen).bind (hexRun 4)).bind
      dashThen).bind (hexRun 4)).bind dashThen).bind (hexRun 4)).bind
      dashThen).bind (hexRun 12) with
  | some [] => true
  | _ => false

/-- `isLikelyNotSecret` (src/unnamed/part_011): the full heuristic set. -/
def isLikelyNotSecret (s : List Char) : Bool :=
  let lower := s.map Char.toLower
  isLowercaseWord s || isCommonKeyword lower || isPathOrURL s lower ||
  isFileExtension s lower || isShortBase64 s || uuidMatch lower

/-- Codepoint frequencies of a string (the `freq` map of
`calculateEntropy`), as the list of counts of the distinct characters. -/
def charCounts (s : List Char) : List Nat :=
  s.dedup.map (fun c => s.count c)

/-- Exact embedding of the comparison `calculateEntropy(s) >= threshold`
(src/unnamed/part_011): for `θ = a/b > 0` and `N = |s| > 0`,
`−Σ pᵢ·log2 pᵢ ≥ a/b  ⟺  N^(b·N) ≥ 2^(a·N) · Π cᵢ^(b·cᵢ)`, which is decided
exactly over the integers.  (Go computes the entropy in `float64`; the
embedding decides the same comparison over the reals, ignoring float
rounding.)  `calculateEntropy` of the empty string is 0. -/
def calculateEntropyGE (s : List Char) (θ : ℚ) : Bool :=
  if s.length = 0 then decide (θ ≤ 0)
  else if θ ≤ 0 then true
  else
    let a := θ.num.toNat
    let b := θ.den
    let counts := charCounts s
    let N := s.length
    decide (2 ^ (a * N) * (counts.map (fun c => c ^ (b * c))).prod ≤ N ^ (b * N))

/-- Configuration of the entropy detector (`threshold`, `min_length`,
`max_length`). -/
structure EntropyCfg where
  threshold : ℚ
  minLength : Nat
  maxLength : Nat

/-- `EntropyInterceptor.Detect` (src/unnamed/part_011): for every candidate
(regex match), skip it when outside `[minLength, maxLength]`, when
`isLikelyNotSecret`, or when its entropy is below the threshold; otherwise
emit a `DetectedSecret` with type `high_entropy` and the candidate's byte
range.  `conf` abstracts the `float64` confidence map
`entropyToConfidence ∘ calculateEntropy`. -/
def entropyDetect (cfg : EntropyCfg) (conf : List Char → ℚ)
    (text : List Char) : List DetectedSecret :=
  (findCandidates text).filterMap (fun r =>
    let candidate := extractL text r.1 r.2
    if candidate.length < cfg.minLength ∨ cfg.maxLength < candidate.length then
      none
    else if isLikelyNotSecret candidate then none
    else if calculateEntropyGE candidate cfg.threshold then
      some ⟨candidate, r.1, r.2, "high_entropy", conf candidate, ""⟩
    else none)

/-- Spec-side notion: `[i, j)` is a maximal run of candidate-class
characters of `t`. -/
def MaxRun (t : List Char) (i j : Nat) : Prop :=
  i < j ∧ j ≤ t.length
  ∧ (∀ k, i ≤ k → k < j → isClassChar (t.getD k ' ') = true)
  ∧ (i = 0 ∨ isClassChar (t.getD (i - 1) ' ') = false)
  ∧ (j = t.length ∨ isClassChar (t.getD j ' ') = false)

theorem isClassChar_space : isClassChar ' ' = false := by decide

theorem getD_eq_headD_drop (t : List Char) (n : Nat) (d : Char) :
    t.getD n d = (t.drop n).headD d := by
  induction t generalizing n with
  | nil => simp [List.getD]
  | cons c cs ih =>
    cases n with
    | zero => simp [List.getD]
    | succ m => simpa [List.getD] using ih m

theorem getD_default_of_le {t : List Char} {k : Nat} (h : t.length ≤ k)
    (d : Char) : t.getD k d = d := by
  rw [getD_eq_headD_drop, List.drop_eq_nil_of_le h]
  rfl

theorem drop_cons_facts {t : List Char} {pos : Nat} {c : Char} {cs : List Char}
    (h : t.drop pos = c :: cs) :
    t.getD pos ' ' = c ∧ t.drop (pos + 1) = cs ∧ pos < t.length := by
  refine ⟨by rw [getD_eq_headD_drop, h]; rfl, ?_, ?_⟩
  · rw [← List.tail_drop, h]
    rfl
  · by_contra hlen
    rw [List.drop_eq_nil_of_le (Nat.le_of_not_lt hlen)] at h
    simp at h

theorem runsGo_spec : ∀ (cs : List Char) (pos : Nat) (t : List Char)
    (st : Option Nat), t.drop pos = cs →
    (match st with
     | none => pos = 0 ∨ isClassChar (t.getD (pos - 1) ' ') = false
     | some s => s < pos
        ∧ (∀ k, s ≤ k → k < pos → isClassChar (t.getD k ' ') = true)
        ∧ (s = 0 ∨ isClassChar (t.getD (s - 1) ' ') = false)) →
    ∀ i j, ((i, j) ∈ runsGo cs pos st
      ↔ MaxRun t i j ∧ (match st with
          | none => pos ≤ i
          | some s => i = s ∨ pos ≤ i)) := by
  intro cs
  induction cs with
  | nil =>
    intro pos t st hdrop hinv i j
    have hlen : t.length ≤ pos := List.drop_eq_nil_iff.mp hdrop
    cases st with
    | none =>
      unfold runsGo
      simp only [List.not_mem_nil, false_iff]
      rintro ⟨⟨hij, hjl, _, _, _⟩, hpi⟩
      omega
    | some s =>
      obtain ⟨hsp, hint, hleft⟩ := hinv
      have hple : pos ≤ t.length := by
        by_contra hgt
        have hcl := hint (pos - 1) (by omega) (by omega)
        rw [getD_default_of_le (by omega), isClassChar_space] at hcl
        exact Bool.false_ne_true hcl
      have hpeq : pos = t.length := le_antisymm hple hlen
      unfold runsGo
      simp only [List.mem_singleton, Prod.mk.injEq]
      constructor
      · rintro ⟨hi, hj⟩
        subst hi hj
        exact ⟨⟨hsp, hpeq ▸ le_refl _, hint, hleft, Or.inl hpeq⟩, Or.inl rfl⟩
      · rintro ⟨⟨hij, hjl, hintr, hlft, hright⟩, hi⟩
        rcases hi with hi | hi
        · subst hi
          refine ⟨rfl, ?_⟩
          by_contra hjp
          have hjlt : j < pos := by omega
          rcases hright with hr | hr
          · omega
          · have hjc := hint j (by omega) (by omega)
            rw [hjc] at hr
            exact absurd hr (by decide)
        · omega
  | cons c cs' ih =>
    intro pos t st hdrop hinv i j
    obtain ⟨hgd, hdrop', hplen⟩ := drop_cons_facts hdrop
    cases st with
    | none =>
      unfold runsGo
      by_cases hcl : isClassChar c
      · rw [if_pos hcl]
        rw [ih (pos + 1) t (some pos) hdrop'
          ⟨Nat.lt_succ_self pos,
           fun k hk1 hk2 => by
             have hk : k = pos := by omega
             rw [hk, hgd]; exact hcl,
           hinv⟩ i j]
        constructor
        · rintro ⟨hm, hi⟩
          exact ⟨hm, by rcases hi with hi | hi <;> omega⟩
        · rintro ⟨hm, hi⟩
          refine ⟨hm, ?_⟩
          rcases Nat.eq_or_lt_of_le hi with hi' | hi'
          · exact Or.inl hi'.symm
          · exact Or.inr hi'
      · rw [if_neg hcl]
        rw [ih (pos + 1) t none hdrop'
          (Or.inr (by rw [Nat.add_sub_cancel, hgd]
                      exact Bool.of_not_eq_true hcl)) i j]
        constructor
        · rintro ⟨hm, hi⟩
          exact ⟨hm, by omega⟩
        · rintro ⟨hm, hi⟩
          refine ⟨hm, ?_⟩
          rcases Nat.eq_or_lt_of_le hi with hi' | hi'
          · exfalso
            obtain ⟨hij, _, hintr, _, _⟩ := hm
            have hic := hintr i (le_refl i) hij
            rw [← hi', hgd] at hic
            exact hcl hic
          · exact hi'
    | some s =>
      obtain ⟨hsp, hint, hleft⟩ := hinv
      unfold runsGo
      by_cases hcl : isClassChar c
      · rw [if_pos hcl]
        rw [ih (pos + 1) t (some s) hdrop'
          ⟨by omega,
           fun k hk1 hk2 => by
             rcases Nat.lt_or_ge k pos with hk | hk
             · exact hint k hk1 hk
             · have hke : k = pos := by omega
               rw [hke, hgd]; exact hcl,
           hleft⟩ i j]
        constructor
        · rintro ⟨hm, hi⟩
          refine ⟨hm, ?_⟩
          rcases hi with hi | hi
          · exact Or.inl hi
          · exact Or.inr (by omega)
        · rintro ⟨hm, hi⟩
          refine ⟨hm, ?_⟩
          rcases hi with hi | hi
          · exact Or.inl hi
          · rcases Nat.eq_or_lt_of_le hi with hi' | hi'
            · exfalso
              obtain ⟨hij, _, _, hlft, _⟩ := hm
              rcases hlft with hl | hl
              · omega
              · have hic := hint (i - 1) (by omega) (by omega)
                rw [hic] at hl
                exact absurd hl (by decide)
            · exact Or.inr hi'
      · rw [if_neg hcl]
        simp only [List.mem_cons, Prod.mk.injEq]
        rw [ih (pos + 1) t none hdrop'
          (Or.inr (by rw [Nat.add_sub_cancel, hgd]
                      exact Bool.of_not_eq_true hcl)) i j]
        constructor
        · rintro (⟨hi, hj⟩ | ⟨hm, hi⟩)
          · subst hi hj
            refine ⟨⟨hsp, le_of_lt hplen, hint, hleft,
              Or.inr (by rw [hgd]; exact Bool.of_not_eq_true hcl)⟩, Or.inl rfl⟩
          · exact ⟨hm, Or.inr (by omega)⟩
        · rintro ⟨hm, hi⟩
          obtain ⟨hij, hjl, hintr, hlft, hright⟩ := hm
          rcases hi with hi | hi
          · subst hi
            left
            refine ⟨rfl, ?_⟩
            have hjle : j ≤ pos := by
              by_contra hgt
              have hic := hintr pos (by omega) (by omega)
              rw [hgd] at hic
              exact hcl hic
            by_contra hjp
            have hjlt : j < pos := by omega
            rcases hright with hr | hr
            · omega
            · have hjc := hint j (by omega) (by omega)
              rw [hjc] at hr
              exact absurd hr (by decide)
          · right
            refine ⟨⟨hij, hjl, hintr, hlft, hright⟩, ?_⟩
            rcases Nat.eq_or_lt_of_le hi with hi' | hi'
            · exfalso
              have hic := hintr i (le_refl i) hij
              rw [← hi', hgd] at hic
              exact hcl hic
            · exact hi'

theorem findCandidates_spec (t : List Char) (i j : Nat) :
    (i, j) ∈ findCandidates t ↔ MaxRun t i j ∧ 8 ≤ j - i := by
  unfold findCandidates
  rw [List.mem_filter, runsGo_spec t 0 t none (by simp) (Or.inl rfl) i j]
  constructor
  · rintro ⟨⟨hm, _⟩, hf⟩
    exact ⟨hm, by simpa using hf⟩
  · rintro ⟨hm, hf⟩
    exact ⟨⟨hm, Nat.zero_le i⟩, by simpa using hf⟩

/-- C8: the entropy detector emits exactly the right findings.  For every
text and configuration, `d` is in `Detect`'s output iff there is a maximal
run `[i, j)` of candidate-class characters (`[A-Za-z0-9+/=_-]`) of length at
least 8 (the regex match) such that the candidate `text[i:j]` is within the
configured `[min_length, max_length]`, is not excluded by the heuristic set
(`isLikelyNotSecret`: all-lowercase-no-digit; the fixed identifier list;
path/URL affixes; file-extension suffixes; short base64 padding; canonical
UUIDs), has Shannon entropy over codepoint frequencies at least `threshold`,
and `d` records that candidate with type `high_entropy` and the byte range
`[i, j)`. -/
theorem entropy_detect_characterization (cfg : EntropyCfg)
    (conf : List Char → ℚ) (text : List Char) (d : DetectedSecret) :
    d ∈ entropyDetect cfg conf text
      ↔ ∃ i j, MaxRun text i j ∧ 8 ≤ j - i
        ∧ cfg.minLength ≤ (extractL text i j).length
        ∧ (extractL text i j).length ≤ cfg.maxLength
        ∧ isLikelyNotSecret (extractL text i j) = false
        ∧ calculateEntropyGE (extractL text i j) cfg.threshold = true
        ∧ d = ⟨extractL text i j, i, j, "high_entropy",
                conf (extractL text i j), ""⟩ := by
  unfold entropyDetect
  rw [List.mem_filterMap]
  constructor
  · rintro ⟨⟨i, j⟩, hr, hf⟩
    obtain ⟨hm, h8⟩ := (findCandidates_spec text i j).mp hr
    dsimp only at hf
    split_ifs at hf with h1 h2 h3 <;>
      first
        | exact Option.noConfusion hf
        | exact ⟨i, j, hm, h8, by omega, by omega, Bool.of_not_eq_true h2, h3,
            (Option.some.inj hf).symm⟩
  · rintro ⟨i, j, hm, h8, hmin, hmax, hnot, hent, hd⟩
    refine ⟨(i, j), (findCandidates_spec text i j).mpr ⟨hm, h8⟩, ?_⟩
    dsimp only
    rw [if_neg (by omega), if_neg (by simp [hnot]), if_pos hent, hd]

/-! ## Replacer (src/unnamed/part_010): replace / restore round trip -/

theorem restoreF_fuel {pre suf : List Char} {lookup : List Char → Option (List Char)} :
    ∀ (n m : Nat) (t : List Char), t.length ≤ n → t.length ≤ m →
    restoreF pre suf lookup n t = restoreF pre suf lookup m t := by
  intro n
  induction n with
  | zero =>
    intro m t hn _
    have : t = [] := List.eq_nil_of_length_eq_zero (Nat.le_zero.mp hn)
    subst this
    cases m <;> rfl
  | succ n ih =>
    intro m t hn hm
    cases t with
    | nil => cases m <;> rfl
    | cons c cs =>
      cases m with
      | zero => simp at hm
      | succ m' =>
        unfold restoreF
        cases hmp : matchPH pre suf (c :: cs) with
        | none =>
          simp only [List.length_cons] at hn hm
          rw [ih m' cs (by omega) (by omega)]
        | some pr =>
          obtain ⟨ph, rest⟩ := pr
          dsimp only
          obtain ⟨h, _, _, _, hcs, hpl⟩ := matchPH_sound hmp
          have hrl : rest.length + phLen pre suf = cs.length + 1 := by
            have := congrArg List.length hcs
            simp [hpl] at this
            omega
          have hph8 : 8 ≤ phLen pre suf := by
            unfold phLen
            omega
          simp only [List.length_cons] at hn hm
          rw [ih m' rest (by omega) (by omega)]

theorem restore_cons_eq (pre suf : List Char)
    (lookup : List Char → Option (List Char)) (c : Char) (cs : List Char) :
    restore pre suf lookup (c :: cs)
      = match matchPH pre suf (c :: cs) with
        | some (ph, rest) =>
          (match lookup ph with
           | some s => s
           | none => ph) ++ restoreF pre suf lookup cs.length rest
        | none => c :: restoreF pre suf lookup cs.length cs := rfl

theorem restore_cons_none {pre suf : List Char}
    {lookup : List Char → Option (List Char)} {c : Char} {cs : List Char}
    (h : matchPH pre suf (c :: cs) = none) :
    restore pre suf lookup (c :: cs) = c :: restore pre suf lookup cs := by
  rw [restore_cons_eq, h]
  rfl

theorem restore_cons_some {pre suf : List Char}
    {lookup : List Char → Option (List Char)} {c : Char} {cs ph rest : List Char}
    (h : matchPH pre suf (c :: cs) = some (ph, rest)) :
    restore pre suf lookup (c :: cs)
      = (match lookup ph with
         | some s => s
         | none => ph) ++ restore pre suf lookup rest := by
  rw [restore_cons_eq, h]
  dsimp only
  obtain ⟨hh, _, _, _, hcs, hpl⟩ := matchPH_sound h
  have hrl : rest.length + phLen pre suf = cs.length + 1 := by
    have := congrArg List.length hcs
    simp [hpl] at this
    omega
  have hph8 : 8 ≤ phLen pre suf := by
    unfold phLen
    omega
  rw [show restore pre suf lookup rest = restoreF pre suf lookup rest.length rest
    from rfl]
  rw [restoreF_fuel cs.length rest.length rest (by omega) (le_refl _)]

theorem restore_id_of_no_occ {pre suf : List Char}
    {lookup : List Char → Option (List Char)} :
    ∀ {t : List Char}, (∀ i, i < t.length → matchPH pre suf (t.drop i) = none) →
    restore pre suf lookup t = t := by
  intro t
  induction t with
  | nil => intro _; rfl
  | cons c cs ih =>
    intro hno
    have h0 : matchPH pre suf (c :: cs) = none := by
      have := hno 0 (by simp)
      simpa using this
    rw [restore_cons_none h0, ih]
    intro i hi
    have := hno (i + 1) (by simp; omega)
    simpa using this

theorem restore_no_occ_append {pre suf : List Char}
    {lookup : List Char → Option (List Char)} :
    ∀ (x y : List Char),
    (∀ i, i < x.length → matchPH pre suf ((x ++ y).drop i) = none) →
    restore pre suf lookup (x ++ y) = x ++ restore pre suf lookup y := by
  intro x
  induction x with
  | nil => intro y _; rfl
  | cons c cs ih =>
    intro y hno
    have h0 : matchPH pre suf (c :: (cs ++ y)) = none := by
      have := hno 0 (by simp)
      simpa using this
    rw [List.cons_append, restore_cons_none h0,
      ih y (fun i hi => by
        have := hno (i + 1) (by simp; omega)
        simpa using this)]
    simp

theorem restore_ph_head {lookup : List Char → Option (List Char)}
    {h : List Char} (hl : h.length = 8) (hx : ∀ c ∈ h, isHexDigit c)
    {v : List Char} (hlk : lookup (defPre ++ h ++ defSuf) = some v)
    (z : List Char) :
    restore defPre defSuf lookup ((defPre ++ h ++ defSuf) ++ z)
      = v ++ restore defPre defSuf lookup z := by
  have hm : matchPH defPre defSuf ((defPre ++ h ++ defSuf) ++ z)
      = some (defPre ++ h ++ defSuf, z) := by
    have := matchPH_complete defPre defSuf hl hx z
    rw [show defPre ++ h ++ defSuf ++ z = (defPre ++ h ++ defSuf) ++ z by simp]
      at this
    exact this
  have hcons : (defPre ++ h ++ defSuf) ++ z
      = '_' :: (("_SECRET_".toList ++ h ++ defSuf) ++ z) := by
    simp [defPre, defSuf]
  rw [hcons] at hm ⊢
  rw [restore_cons_some hm, hlk]

/-- `Generator.Generate` with the default affixes: the first 8 characters of
the lowercase-hex SHA-256 digest of the secret, wrapped in the default
prefix/suffix.  The digest function `hashHex` (Go: `crypto/sha256` +
`hex.EncodeToString`) is a parameter of the embedding; only the facts that
the standard library guarantees about it are used (`HashWF`). -/
def genD (hashHex : List Char → List Char) (v : List Char) : List Char :=
  defPre ++ (hashHex v).take 8 ++ defSuf

/-- What `hex.EncodeToString(sha256.Sum256(...))` guarantees: a digest of at
least 8 characters, all lowercase hex. -/
def HashWF (hashHex : List Char → List Char) : Prop :=
  ∀ v, 8 ≤ (hashHex v).length ∧ ∀ c ∈ hashHex v, isHexDigit c

/-- Lookup in the Go map `ReplaceResult.Mappings`
(placeholder → secret). -/
def phLookup : List (List Char × List Char) → List Char → Option (List Char)
  | [], _ => none
  | e :: rest, k => if e.1 = k then some e.2 else phLookup rest k

/-- Assignment `result.Mappings[placeholder] = secret.Value`. -/
def phInsert (m : List (List Char × List Char)) (k v : List Char) :
    List (List Char × List Char) :=
  (k, v) :: m.filter (fun e => e.1 ≠ k)

theorem phLookup_cons (e : List Char × List Char)
    (rest : List (List Char × List Char)) (k : List Char) :
    phLookup (e :: rest) k = if e.1 = k then some e.2 else phLookup rest k := rfl

theorem phLookup_filter_ne (m : List (List Char × List Char))
    {k k' : List Char} (h : k ≠ k') :
    phLookup (m.filter (fun e => e.1 ≠ k)) k' = phLookup m k' := by
  induction m with
  | nil => rfl
  | cons e rest ih =>
    rw [List.filter_cons]
    by_cases he : e.1 = k
    · rw [if_neg (by simp [he]), ih, phLookup_cons,
        if_neg (fun hk => h (he.symm.trans hk))]
    · rw [if_pos (by simp [he]), phLookup_cons, phLookup_cons]
      by_cases he' : e.1 = k'
      · rw [if_pos he', if_pos he']
      · rw [if_neg he', if_neg he', ih]

theorem phLookup_insert (m : List (List Char × List Char)) (k v k' : List Char) :
    phLookup (phInsert m k v) k' = if k = k' then some v else phLookup m k' := by
  unfold phInsert
  rw [phLookup_cons]
  by_cases hk : k = k'
  · rw [if_pos hk, if_pos hk]
  · rw [if_neg hk, if_neg hk, phLookup_filter_ne m hk]

/-- The splicing loop of `Replacer.Replace` (src/unnamed/part_010): for each
finding (already sorted by the caller), record
`Mappings[Generate(value)] = value` and splice
`Text[:StartIndex] + placeholder + Text[EndIndex:]`.  Go string slicing out
of range panics (`none`). -/
def spliceFold (hashHex : List Char → List Char) :
    List Char × List (List Char × List Char) → List DetectedSecret →
    Option (List Char × List (List Char × List Char))
  | tm, [] => some tm
  | (txt, m), f :: fs =>
    match replaceSecretGo txt f.startIndex f.endIndex (genD hashHex f.value) with
    | none => none
    | some txt' =>
      spliceFold hashHex (txt', phInsert m (genD hashHex f.value) f.value) fs

/-- Insertion step modelling `sort.Slice` with
`less = StartIndex descending` in `Replacer.Replace`; with pairwise-distinct
start offsets every correct sort produces the same list. -/
def insertDesc (f : DetectedSecret) : List DetectedSecret → List DetectedSecret
  | [] => [f]
  | g :: gs =>
    if g.startIndex < f.startIndex then f :: g :: gs else g :: insertDesc f gs

/-- Sort by descending start offset (`Replacer.Replace`). -/
def sortDesc (l : List DetectedSecret) : List DetectedSecret :=
  l.foldr insertDesc []

/-- `Replacer.Replace`: sort the detected findings by start descending, then
splice each with its generated placeholder, recording the mappings.  Returns
the modified text and the `Mappings` table. -/
def replacerReplace (hashHex : List Char → List Char) (text : List Char)
    (fs : List DetectedSecret) :
    Option (List Char × List (List Char × List Char)) :=
  spliceFold hashHex (text, []) (sortDesc fs)

/-- Validity of a findings list for a text, from position `pos` on: each
finding starts at or after `pos`, has a nonempty in-bounds range, carries
exactly the text of its range (`DetectAll`'s postcondition), and the
findings are ordered and disjoint (each next segment starts at the previous
end). -/
def fndOkB (t : List Char) : Nat → List DetectedSecret → Bool
  | _, [] => true
  | pos, f :: fs =>
    decide (pos ≤ f.startIndex) && decide (f.startIndex < f.endIndex)
    && decide (f.endIndex ≤ t.length)
    && decide (f.value = extractL t f.startIndex f.endIndex)
    && fndOkB t f.endIndex fs

/-- The intended offset-preserving result of replacement: the text with each
finding's range replaced by its placeholder and every other byte
unchanged. -/
def buildA (hashHex : List Char → List Char) (t : List Char) :
    Nat → List DetectedSecret → List Char
  | pos, [] => t.drop pos
  | pos, f :: fs =>
    (t.drop pos).take (f.startIndex - pos) ++ genD hashHex f.value
      ++ buildA hashHex t f.endIndex fs

/-- No occurrence of the placeholder pattern starts inside a leftover text
segment of the replaced text: the inserted placeholders are the only
occurrences. -/
def segOkB (hashHex : List Char → List Char) (t : List Char) :
    Nat → List DetectedSecret → Bool
  | pos, [] => (List.range (t.length - pos)).all
      (fun i => (matchPH defPre defSuf ((t.drop pos).drop i)).isNone)
  | pos, f :: fs =>
    (List.range (f.startIndex - pos)).all
      (fun i =>
        (matchPH defPre defSuf ((buildA hashHex t pos (f :: fs)).drop i)).isNone)
    && segOkB hashHex t f.endIndex fs

theorem fndOkB_nil (t : List Char) (pos : Nat) : fndOkB t pos [] = true := rfl

theorem fndOkB_cons (t : List Char) (pos : Nat) (f : DetectedSecret)
    (fs : List DetectedSecret) :
    fndOkB t pos (f :: fs)
      = (decide (pos ≤ f.startIndex) && decide (f.startIndex < f.endIndex)
        && decide (f.endIndex ≤ t.length)
        && decide (f.value = extractL t f.startIndex f.endIndex)
        && fndOkB t f.endIndex fs) := rfl

theorem buildA_nil (hashHex : List Char → List Char) (t : List Char) (pos : Nat) :
    buildA hashHex t pos [] = t.drop pos := rfl

theorem buildA_cons (hashHex : List Char → List Char) (t : List Char) (pos : Nat)
    (f : DetectedSecret) (fs : List DetectedSecret) :
    buildA hashHex t pos (f :: fs)
      = (t.drop pos).take (f.startIndex - pos) ++ genD hashHex f.value
        ++ buildA hashHex t f.endIndex fs := rfl

theorem segOkB_nil (hashHex : List Char → List Char) (t : List Char) (pos : Nat) :
    segOkB hashHex t pos []
      = (List.range (t.length - pos)).all
          (fun i => (matchPH defPre defSuf ((t.drop pos).drop i)).isNone) := rfl

theorem segOkB_cons (hashHex : List Char → List Char) (t : List Char) (pos : Nat)
    (f : DetectedSecret) (fs : List DetectedSecret) :
    segOkB hashHex t pos (f :: fs)
      = ((List.range (f.startIndex - pos)).all
          (fun i =>
            (matchPH defPre defSuf
              ((buildA hashHex t pos (f :: fs)).drop i)).isNone)
        && segOkB hashHex t f.endIndex fs) := rfl

theorem spliceFold_nil (hashHex : List Char → List Char)
    (tm : List Char × List (List Char × List Char)) :
    spliceFold hashHex tm [] = some tm := rfl

theorem spliceFold_cons (hashHex : List Char → List Char) (txt : List Char)
    (m : List (List Char × List Char)) (f : DetectedSecret)
    (fs : List DetectedSecret) :
    spliceFold hashHex (txt, m) (f :: fs)
      = match replaceSecretGo txt f.startIndex f.endIndex
          (genD hashHex f.value) with
        | none => none
        | some txt' =>
          spliceFold hashHex
            (txt', phInsert m (genD hashHex f.value) f.value) fs := rfl

theorem fndOk_pos_le (t : List Char) :
    ∀ (fs : List DetectedSecret) (pos : Nat), fndOkB t pos fs = true →
    ∀ g ∈ fs, pos ≤ g.startIndex ∧ g.startIndex < g.endIndex
      ∧ g.endIndex ≤ t.length ∧ g.value = extractL t g.startIndex g.endIndex := by
  intro fs
  induction fs with
  | nil => intro pos _ g hg; exact absurd hg (List.not_mem_nil g)
  | cons f fs ih =>
    intro pos hok g hg
    rw [fndOkB_cons] at hok
    simp only [Bool.and_eq_true, decide_eq_true_eq] at hok
    obtain ⟨⟨⟨⟨h1, h2⟩, h3⟩, h4⟩, h5⟩ := hok
    rcases List.mem_cons.mp hg with hgf | hg'
    · subst hgf; exact ⟨h1, h2, h3, h4⟩
    · have := ih f.endIndex h5 g hg'
      exact ⟨by have h6 := this.1; omega, this.2⟩

theorem fndOk_before_last (t : List Char) :
    ∀ (l : List DetectedSecret) (f : DetectedSecret) (pos : Nat),
    fndOkB t pos (l ++ [f]) = true →
    ∀ g ∈ l, g.endIndex ≤ f.startIndex := by
  intro l
  induction l with
  | nil => intro f pos _ g hg; exact absurd hg (List.not_mem_nil g)
  | cons a l ih =>
    intro f pos hok g hg
    rw [List.cons_append, fndOkB_cons] at hok
    simp only [Bool.and_eq_true] at hok
    rcases List.mem_cons.mp hg with hga | hg'
    · subst hga
      have := fndOk_pos_le t (l ++ [f]) g.endIndex hok.2 f (by simp)
      exact this.1
    · exact ih f a.endIndex hok.2 g hg'

theorem extractL_take (t : List Char) {s e c : Nat} (h : e ≤ c) :
    extractL (t.take c) s e = extractL t s e := by
  unfold extractL
  rw [List.drop_take, List.take_take]
  congr 1
  omega

theorem fndOk_take (t : List Char) :
    ∀ (l : List DetectedSecret) (f : DetectedSecret) (pos : Nat),
    fndOkB t pos (l ++ [f]) = true →
    fndOkB (t.take f.startIndex) pos l = true := by
  intro l
  induction l with
  | nil => intro f pos _; rfl
  | cons g gs ih =>
    intro f pos hok
    have hgf : g.endIndex ≤ f.startIndex :=
      fndOk_before_last t (g :: gs) f pos hok g (by simp)
    have hfb := fndOk_pos_le t ((g :: gs) ++ [f]) pos hok f (by simp)
    rw [List.cons_append, fndOkB_cons] at hok
    simp only [Bool.and_eq_true, decide_eq_true_eq] at hok
    obtain ⟨⟨⟨⟨h1, h2⟩, h3⟩, h4⟩, h5⟩ := hok
    rw [fndOkB_cons]
    simp only [Bool.and_eq_true, decide_eq_true_eq]
    refine ⟨⟨⟨⟨h1, h2⟩, ?_⟩, ?_⟩, ih f g.endIndex h5⟩
    · rw [List.length_take]; omega
    · rw [extractL_take t hgf]; exact h4

theorem insertDesc_sink (f : DetectedSecret) :
    ∀ (l : List DetectedSecret), (∀ g ∈ l, ¬ g.startIndex < f.startIndex) →
    insertDesc f l = l ++ [f] := by
  intro l
  induction l with
  | nil => intro _; rfl
  | cons g gs ih =>
    intro h
    unfold insertDesc
    rw [if_neg (h g (by simp)), ih (fun a ha => h a (List.mem_cons.mpr (Or.inr ha)))]
    rfl

theorem sortDesc_eq_reverse :
    ∀ {fs : List DetectedSecret},
    List.Pairwise (fun a b => a.startIndex < b.startIndex) fs →
    sortDesc fs = fs.reverse := by
  intro fs
  induction fs with
  | nil => intro _; rfl
  | cons f fs ih =>
    intro hpw
    have h1 : sortDesc (f :: fs) = insertDesc f (sortDesc fs) := rfl
    rw [h1, ih (List.Pairwise.of_cons hpw),
      insertDesc_sink f fs.reverse
        (fun g hg => by
          have := (List.pairwise_cons.mp hpw).1 g (List.mem_reverse.mp hg)
          omega),
      List.reverse_cons]

theorem buildA_snoc (hashHex : List Char → List Char) :
    ∀ (l : List DetectedSecret) (t : List Char) (pos : Nat) (f : DetectedSecret),
    fndOkB t pos (l ++ [f]) = true →
    buildA hashHex (t.take f.startIndex) pos l
        ++ (genD hashHex f.value ++ t.drop f.endIndex)
      = buildA hashHex t pos (l ++ [f]) := by
  intro l
  induction l with
  | nil =>
    intro t pos f _
    rw [List.nil_append, buildA_nil, buildA_cons, buildA_nil, List.drop_take,
      List.append_assoc]
  | cons g gs ih =>
    intro t pos f hok
    have hgf : g.endIndex ≤ f.startIndex :=
      fndOk_before_last t (g :: gs) f pos hok g (by simp)
    have hg := fndOk_pos_le t ((g :: gs) ++ [f]) pos hok g (by simp)
    rw [List.cons_append, fndOkB_cons] at hok
    simp only [Bool.and_eq_true, decide_eq_true_eq] at hok
    have hA : ((t.take f.startIndex).drop pos).take (g.startIndex - pos)
        = (t.drop pos).take (g.startIndex - pos) := by
      rw [List.drop_take, List.take_take]
      congr 1
      omega
    have hC := ih t g.endIndex f hok.2
    rw [List.cons_append, buildA_cons, buildA_cons]
    simp only [List.append_assoc]
    rw [hA, hC]

theorem spliceFold_frozen (hashHex : List Char → List Char) :
    ∀ (ds : List DetectedSecret) (x TAIL : List Char)
      (m : List (List Char × List Char))
      (out : List Char × List (List Char × List Char)),
    spliceFold hashHex (x, m) ds = some out →
    spliceFold hashHex (x ++ TAIL, m) ds = some (out.1 ++ TAIL, out.2) := by
  intro ds
  induction ds with
  | nil =>
    intro x TAIL m out h
    rw [spliceFold_nil] at h
    rw [spliceFold_nil, ← Option.some.inj h]
  | cons f ds ih =>
    intro x TAIL m out h
    rw [spliceFold_cons] at h
    rw [spliceFold_cons]
    cases hr : replaceSecretGo x f.startIndex f.endIndex
        (genD hashHex f.value) with
    | none => rw [hr] at h; exact Option.noConfusion h
    | some x1 =>
      rw [hr] at h
      dsimp only at h
      unfold replaceSecretGo at hr
      by_cases hc : f.startIndex ≤ x.length ∧ f.endIndex ≤ x.length
      · rw [if_pos hc] at hr
        have hr2 : replaceSecretGo (x ++ TAIL) f.startIndex f.endIndex
            (genD hashHex f.value) = some (x1 ++ TAIL) := by
          unfold replaceSecretGo
          rw [if_pos ⟨by rw [List.length_append]; omega,
            by rw [List.length_append]; omega⟩]
          rw [List.take_append_of_le_length hc.1,
            List.drop_append_of_le_length hc.2, ← Option.some.inj hr]
          simp [List.append_assoc]
        rw [hr2]
        dsimp only
        exact ih x1 TAIL _ out h
      · rw [if_neg hc] at hr
        exact Option.noConfusion hr

theorem spliceFold_maps (hashHex : List Char → List Char) :
    ∀ (ds : List DetectedSecret)
      (tm out : List Char × List (List Char × List Char)),
    spliceFold hashHex tm ds = some out →
    out.2 = ds.foldl
      (fun m f => phInsert m (genD hashHex f.value) f.value) tm.2 := by
  intro ds
  induction ds with
  | nil =>
    intro tm out h
    rw [spliceFold_nil] at h
    rw [← Option.some.inj h]
    rfl
  | cons f ds ih =>
    intro tm out h
    obtain ⟨txt, m⟩ := tm
    rw [spliceFold_cons] at h
    cases hr : replaceSecretGo txt f.startIndex f.endIndex
        (genD hashHex f.value) with
    | none => rw [hr] at h; exact Option.noConfusion h
    | some txt' =>
      rw [hr] at h
      dsimp only at h
      exact ih (txt', phInsert m (genD hashHex f.value) f.value) out h

theorem foldl_phInsert_preserve (hashHex : List Char → List Char) :
    ∀ (ds : List DetectedSecret) (m : List (List Char × List Char))
      (key val : List Char),
    phLookup m key = some val →
    (∀ g ∈ ds, genD hashHex g.value = key → g.value = val) →
    phLookup (ds.foldl
      (fun m f => phInsert m (genD hashHex f.value) f.value) m) key
      = some val := by
  intro ds
  induction ds with
  | nil => intro m key val h _; exact h
  | cons g ds ih =>
    intro m key val h hcomp
    rw [List.foldl_cons]
    apply ih
    · rw [phLookup_insert]
      by_cases hk : genD hashHex g.value = key
      · rw [if_pos hk, hcomp g (by simp) hk]
      · rw [if_neg hk]; exact h
    · exact fun a ha => hcomp a (List.mem_cons.mpr (Or.inr ha))

theorem foldl_phInsert_lookup (hashHex : List Char → List Char) :
    ∀ (ds : List DetectedSecret) (m : List (List Char × List Char))
      (f : DetectedSecret),
    f ∈ ds →
    (∀ g ∈ ds, genD hashHex g.value = genD hashHex f.value → g.value = f.value) →
    phLookup (ds.foldl
      (fun m f => phInsert m (genD hashHex f.value) f.value) m)
      (genD hashHex f.value) = some f.value := by
  intro ds
  induction ds with
  | nil => intro m f hf _; exact absurd hf (List.not_mem_nil f)
  | cons g ds ih =>
    intro m f hf hcomp
    rw [List.foldl_cons]
    rcases List.mem_cons.mp hf with hfg | hf'
    · subst hfg
      apply foldl_phInsert_preserve
      · rw [phLookup_insert, if_pos rfl]
      · exact fun a ha => hcomp a (List.mem_cons.mpr (Or.inr ha))
    · exact ih _ f hf' (fun a ha => hcomp a (List.mem_cons.mpr (Or.inr ha)))

theorem replace_builds (hashHex : List Char → List Char) :
    ∀ (fs : List DetectedSecret) (t : List Char)
      (m0 : List (List Char × List Char)),
    List.Pairwise (fun a b => a.startIndex < b.startIndex) fs →
    fndOkB t 0 fs = true →
    ∃ mOut, spliceFold hashHex (t, m0) (sortDesc fs)
      = some (buildA hashHex t 0 fs, mOut) := by
  intro fs
  induction fs using List.reverseRecOn with
  | nil =>
    intro t m0 _ _
    exact ⟨m0, by rw [sortDesc_eq_reverse List.Pairwise.nil]; rfl⟩
  | append_singleton fs' f ih =>
    intro t m0 hpw hok
    have hpw' : List.Pairwise (fun a b => a.startIndex < b.startIndex) fs' :=
      ((List.pairwise_append.mp hpw).1)
    have hf := fndOk_pos_le t (fs' ++ [f]) 0 hok f (by simp)
    rw [sortDesc_eq_reverse hpw, List.reverse_append, List.reverse_singleton,
      List.singleton_append, spliceFold_cons]
    have hr : replaceSecretGo t f.startIndex f.endIndex (genD hashHex f.value)
        = some (t.take f.startIndex
            ++ (genD hashHex f.value ++ t.drop f.endIndex)) := by
      unfold replaceSecretGo
      rw [if_pos ⟨by omega, hf.2.2.1⟩, List.append_assoc]
    rw [hr]
    dsimp only
    obtain ⟨m', hsp⟩ := ih (t.take f.startIndex)
      (phInsert m0 (genD hashHex f.value) f.value) hpw' (fndOk_take t fs' f 0 hok)
    rw [← sortDesc_eq_reverse hpw']
    refine ⟨m', ?_⟩
    have := spliceFold_frozen hashHex (sortDesc fs') (t.take f.startIndex)
      (genD hashHex f.value ++ t.drop f.endIndex) _ _ hsp
    rw [this]
    dsimp only
    rw [buildA_snoc hashHex fs' t 0 f hok]

theorem restore_buildA (hashHex : List Char → List Char) (hwf : HashWF hashHex)
    (lookup : List Char → Option (List Char)) :
    ∀ (fs : List DetectedSecret) (pos : Nat) (t : List Char),
    fndOkB t pos fs = true →
    (∀ f ∈ fs, lookup (genD hashHex f.value) = some f.value) →
    segOkB hashHex t pos fs = true →
    restore defPre defSuf lookup (buildA hashHex t pos fs) = t.drop pos := by
  intro fs
  induction fs with
  | nil =>
    intro pos t _ _ hseg
    rw [buildA_nil]
    apply restore_id_of_no_occ
    intro i hi
    rw [segOkB_nil] at hseg
    rw [List.length_drop] at hi
    have h7 : (matchPH defPre defSuf ((t.drop pos).drop i)).isNone = true :=
      List.all_eq_true.mp hseg i (List.mem_range.mpr hi)
    exact Option.isNone_iff_eq_none.mp h7
  | cons f fs ih =>
    intro pos t hok hlk hseg
    rw [fndOkB_cons] at hok
    simp only [Bool.and_eq_true, decide_eq_true_eq] at hok
    obtain ⟨⟨⟨⟨h1, h2⟩, h3⟩, h4⟩, h5⟩ := hok
    rw [segOkB_cons, Bool.and_eq_true] at hseg
    obtain ⟨hseg1, hseg2⟩ := hseg
    rw [buildA_cons, List.append_assoc]
    have hno : ∀ i, i < ((t.drop pos).take (f.startIndex - pos)).length →
        matchPH defPre defSuf
          ((((t.drop pos).take (f.startIndex - pos))
            ++ (genD hashHex f.value
              ++ buildA hashHex t f.endIndex fs)).drop i) = none := by
      intro i hi
      rw [List.length_take, List.length_drop] at hi
      have h6 : (matchPH defPre defSuf
          ((buildA hashHex t pos (f :: fs)).drop i)).isNone = true :=
        List.all_eq_true.mp hseg1 i (List.mem_range.mpr (by omega))
      rw [Option.isNone_iff_eq_none, buildA_cons, List.append_assoc] at h6
      exact h6
    rw [restore_no_occ_append _ _ hno]
    have htl : ((hashHex f.value).take 8).length = 8 := by
      rw [List.length_take]
      have := (hwf f.value).1
      omega
    have hhx : ∀ c ∈ (hashHex f.value).take 8, isHexDigit c :=
      fun c hc => (hwf f.value).2 c (List.mem_of_mem_take hc)
    have hlkf : lookup (defPre ++ (hashHex f.value).take 8 ++ defSuf)
        = some f.value := hlk f (by simp)
    have hgen : genD hashHex f.value
        = defPre ++ (hashHex f.value).take 8 ++ defSuf := rfl
    rw [hgen, restore_ph_head htl hhx hlkf]
    rw [ih f.endIndex t h5 (fun g hg => hlk g (List.mem_cons.mpr (Or.inr hg)))
      hseg2]
    have e3 : t.drop f.startIndex = f.value ++ t.drop f.endIndex := by
      rw [h4]
      show t.drop f.startIndex
        = (t.drop f.startIndex).take (f.endIndex - f.startIndex)
          ++ t.drop f.endIndex
      rw [show t.drop f.endIndex
          = (t.drop f.startIndex).drop (f.endIndex - f.startIndex) from by
        rw [List.drop_drop]
        congr 1
        omega]
      exact (List.take_append_drop _ _).symm
    conv_rhs => rw [← List.take_append_drop (f.startIndex - pos) (t.drop pos)]
    congr 1
    rw [List.drop_drop, show pos + (f.startIndex - pos) = f.startIndex by omega, e3]

/-- `strings.Contains`: is `p` a contiguous substring of `s`? (used only to
state the original claim's proviso about secrets and placeholder images). -/
def isSubstrL (p s : List Char) : Bool :=
  (List.range (s.length + 1)).any (fun i => hasPrefixL p (s.drop i))

/-- A hash function for the counterexample run: every secret digests to
`abcdabcd`. -/
def cexHash : List Char → List Char := fun _ => "abcdabcd".toList

/-- Counterexample text: ends in the 8-byte secret `ZZZZZZZZ`, and the
byte before it happens to read `__SECRET_deadbeef` (prefix + 8 hex, no
suffix — NOT a placeholder occurrence in `t`). -/
def tC2 : List Char := "x__SECRET_deadbeefZZZZZZZZ".toList

/-- The single detected secret of the counterexample: `ZZZZZZZZ` at
`[18, 26)` — a perfectly well-formed finding. -/
def fC2 : DetectedSecret :=
  ⟨"ZZZZZZZZ".toList, 18, 26, "high_entropy", 1, "entropy"⟩

/-- What `Replace` produces on `tC2`: inserting `__SECRET_abcdabcd__` right
after `…deadbeef` creates a spurious pattern occurrence
`__SECRET_deadbeef__` at offset 1, overlapping the real placeholder. -/
def tC2x : List Char := "x__SECRET_deadbeef__SECRET_abcdabcd__".toList

/-- The mapping table `Replace` records on `tC2`. -/
def mC2 : List (List Char × List Char) :=
  [("__SECRET_abcdabcd__".toList, "ZZZZZZZZ".toList)]

/-- Constant hash for the witness run. -/
def hash0 : List Char → List Char := fun _ => "00000000".toList

/-- Witness text with one high-entropy secret at `[4, 14)`. -/
def tW : List Char := "pw: hunter22ZZ ok".toList

/-- The witness finding. -/
def fW : DetectedSecret :=
  ⟨"hunter22ZZ".toList, 4, 14, "high_entropy", 1, "entropy"⟩

/-- `Replace`'s output text on the witness run. -/
def tWx : List Char := "pw: __SECRET_00000000__ ok".toList

/-- `Replace`'s mapping table on the witness run. -/
def mW : List (List Char × List Char) :=
  [("__SECRET_00000000__".toList, "hunter22ZZ".toList)]

/-- C2 (amended): the replace/restore round-trip
`Restore(Replace(t).text, lookup into Replace(t).mappings) = t` holds for
every text `t`, every digest function with the SHA-256-hex interface, and
every well-formed findings list (strictly ascending, in-bounds, disjoint,
value-faithful — `DetectAll`'s postcondition), PROVIDED (a) findings with
distinct values receive distinct placeholders (no truncated-digest
collision) and (b) the inserted placeholders are the only occurrences of the
placeholder pattern in the replaced text.  The original claim's proviso ("no
detected secret is a substring of another placeholder image") is not
sufficient: see the counterexample, where the replaced text contains a
spurious pattern occurrence straddling an insertion boundary and `Restore`
returns the replaced text unchanged. -/
theorem replace_restore_roundtrip
    (hashHex : List Char → List Char) (hwf : HashWF hashHex)
    (t t' : List Char) (fs : List DetectedSecret)
    (m : List (List Char × List Char))
    (hasc : List.Pairwise (fun a b => a.startIndex < b.startIndex) fs)
    (hok : fndOkB t 0 fs = true)
    (hinj : ∀ f ∈ fs, ∀ g ∈ fs,
      genD hashHex g.value = genD hashHex f.value → g.value = f.value)
    (hseg : segOkB hashHex t 0 fs = true)
    (hrep : replacerReplace hashHex t fs = some (t', m)) :
    restore defPre defSuf (phLookup m) t' = t := by
  obtain ⟨mOut, hsp⟩ := replace_builds hashHex fs t [] hasc hok
  unfold replacerReplace at hrep
  rw [hsp] at hrep
  have hpair := Option.some.inj hrep
  injection hpair with h1 h2
  subst h1
  subst h2
  have hmaps := spliceFold_maps hashHex (sortDesc fs) (t, []) _ hsp
  dsimp only at hmaps
  have hsd : sortDesc fs = fs.reverse := sortDesc_eq_reverse hasc
  have hlk : ∀ f ∈ fs, phLookup mOut (genD hashHex f.value) = some f.value := by
    intro f hf
    rw [hmaps]
    apply foldl_phInsert_lookup
    · rw [hsd, List.mem_reverse]
      exact hf
    · intro g hg hgen
      refine hinj f hf g ?_ hgen
      rw [hsd, List.mem_reverse] at hg
      exact hg
  rw [restore_buildA hashHex hwf (phLookup mOut) fs 0 t hok hlk hseg,
    List.drop_zero]

theorem hash0_wf : HashWF hash0 := by
  intro v
  refine ⟨?_, ?_⟩
  · simp only [hash0]
    decide
  · simp only [hash0]
    decide

/-- Witness for C2: on `"pw: hunter22ZZ ok"` with the one finding at
`[4, 14)`, `Replace` yields `"pw: __SECRET_00000000__ ok"` with its mapping,
and restoring gives back the original text. -/
theorem replace_restore_roundtrip_witness :
    (List.Pairwise (fun a b => a.startIndex < b.startIndex) [fW]
      ∧ fndOkB tW 0 [fW] = true
      ∧ segOkB hash0 tW 0 [fW] = true
      ∧ replacerReplace hash0 tW [fW] = some (tWx, mW))
    ∧ restore defPre defSuf (phLookup mW) tWx = tW :=
  ⟨⟨by decide, by decide, by decide, by decide⟩,
   replace_restore_roundtrip hash0 hash0_wf
     tW tWx [fW] mW (by decide) (by decide) (by decide) (by decide) (by decide)⟩

/-- Counterexample to C2 as stated: the finding `ZZZZZZZZ` at `[18, 26)` of
`"x__SECRET_deadbeefZZZZZZZZ"` is well-formed and is NOT a substring of the
placeholder image `__SECRET_abcdabcd__` (the original proviso holds), yet
`Restore` on `Replace`'s output `"x__SECRET_deadbeef__SECRET_abcdabcd__"`
finds the spurious straddling occurrence `__SECRET_deadbeef__` first, misses
the lookup, skips past it into the real placeholder, and returns the text
unchanged instead of the original. -/
theorem replace_restore_roundtrip_cex :
    fndOkB tC2 0 [fC2] = true
    ∧ isSubstrL fC2.value (genD cexHash fC2.value) = false
    ∧ replacerReplace cexHash tC2 [fC2] = some (tC2x, mC2)
    ∧ restore defPre defSuf (phLookup mC2) tC2x = tC2x
    ∧ tC2x ≠ tC2 := by
  refine ⟨by decide, by decide, by decide, by decide, by decide⟩
